import Mathlib

/-!
Verification of the NLDP node-graph evaluation engine.

This file is a shallow embedding of the engine parts of the NLDP editor:
`NLDPNode.cook` / `_gather_inputs` / `_store_outputs` / `mark_dirty`
(src/core/NLDPNode.py), `NLDPView.is_circular_connection` and the wire
connect / disconnect transactions (src/core/NLDPView.py), and the adjacency
bookkeeping of `NLDPWire.__init__` / `NLDPWire.__del__`
(src/core/NLDPWire.py).

Modelling conventions:
* A node is identified by a natural number; a socket by the pair
  (owning node id, layout row index), mirroring the fact that sockets in
  the source are stored in the dict `self.sockets` keyed by row index and
  compared by object identity.
* Python dicts that are keyed by row index (`sockets`, `static_fields`,
  `output_values`) become association lists in row order (Python dicts
  preserve insertion order, which `_build_from_layout` makes row order).
* The Qt scene's collection of `NLDPWire` items becomes the list `St.wires`.
  Removing a wire item from the scene is modelled together with the
  adjacency cleanup of `NLDPWire.__del__` (the wire object is unreachable
  once removed; the transaction's observable end state is the same).
* Python `float` values are modelled as rationals: every literal occurring
  in the engine and in the claims is exactly representable, and no claim
  depends on rounding.
* The unbounded Python recursions (`mark_dirty`, `cook`, the BFS loop of
  `is_circular_connection`) take an explicit fuel argument; theorems show
  that the fuel bounds used by the model are never exhausted on the states
  the claims quantify over, so the fueled functions agree with the source.
-/

namespace NLDP

/-- Node identifier. -/
abbrev NodeId := Nat

/-- Socket identifier: (owning node id, layout row index). -/
abbrev SockId := Nat × Nat

/-- Socket kind constants `SOCKET_TYPE_INPUT` / `SOCKET_TYPE_OUTPUT`
(src/core/constants.py). -/
inductive SockKind where
  | input
  | output
deriving DecidableEq, Repr

/-- Data type constants `DTYPE_INT` / `DTYPE_FLOAT` / `DTYPE_STRING`
(src/core/constants.py) plus `DTYPE_FILE`, which `_gather_inputs`
(src/core/NLDPNode.py) refers to; the name is absent from the
constants.py snapshot but its pass-through branch is in the gather code. -/
inductive DType where
  | int
  | float
  | file
  | str
deriving DecidableEq, Repr

/-- Field type constants `FIELD_TYPE_INPUT` / `FIELD_TYPE_OUTPUT` /
`FIELD_TYPE_STATIC` / `FIELD_TYPE_DYNAMIC`; `other` stands for any other
tag appearing in a layout (for example `custom_widget`), which
`_build_from_layout` and `_gather_inputs` both skip. -/
inductive FieldType where
  | input
  | output
  | static
  | dynamic
  | other
deriving DecidableEq, Repr

/-- A runtime value: Python int, float (modelled as a rational) or str.
File-path values travel as strings. -/
inductive Value where
  | int (n : Int)
  | float (q : Rat)
  | str (s : String)
deriving DecidableEq, Repr

/-- One row descriptor of a node layout, as consumed by
`_build_from_layout` and `_gather_inputs`: the dict keys `field_type`,
`data_type` (absent for untyped rows) and `default_value`. -/
structure Row where
  field_type : FieldType
  data_type : Option DType := none
  default_value : Option Value := none
deriving DecidableEq, Repr

/-- An `NLDPSocket`: its `socket_type` and its `connections` list of peer
sockets (src/core/NLDPSocket.py). -/
structure Socket where
  kind : SockKind
  connections : List SockId
deriving DecidableEq, Repr

/-- The engine-relevant state of an `NLDPNode`: `layout`, `is_dirty`,
`static_fields` (the stored value may itself be `None` for a Dynamic row
whose layout has no `default_value`), `output_values` and `sockets`. -/
structure NodeSt where
  layout : List Row
  is_dirty : Bool
  static_fields : List (Nat × Option Value)
  output_values : List (Nat × Option Value)
  sockets : List (Nat × Socket)
deriving DecidableEq, Repr

/-- The graph state: the scene's nodes and wires. -/
structure St where
  nodes : List (NodeId × NodeSt)
  wires : List (SockId × SockId)
deriving DecidableEq, Repr

/-! ### Association-list helpers -/

/-- First-match lookup in an association list (Python dict access). -/
def alookup {K α : Type} [DecidableEq K] : List (K × α) → K → Option α
  | [], _ => none
  | p :: t, k => if k = p.1 then some p.2 else alookup t k

/-- Update every entry of a key in an association list. -/
def aupdate {K α : Type} [DecidableEq K] : List (K × α) → K → (α → α) → List (K × α)
  | [], _, _ => []
  | p :: t, k, f => (if p.1 = k then (p.1, f p.2) else p) :: aupdate t k f

theorem alookup_aupdate_self {K α : Type} [DecidableEq K]
    (l : List (K × α)) (k : K) (f : α → α) :
    alookup (aupdate l k f) k = (alookup l k).map f := by
  induction l with
  | nil => rfl
  | cons p t ih =>
    by_cases h : p.1 = k
    · simp [aupdate, alookup, h]
    · have h' : ¬ k = p.1 := fun hh => h hh.symm
      simp [aupdate, alookup, h, h', ih]

theorem alookup_aupdate_ne {K α : Type} [DecidableEq K]
    (l : List (K × α)) (k k' : K) (f : α → α) (h : k' ≠ k) :
    alookup (aupdate l k f) k' = alookup l k' := by
  induction l with
  | nil => rfl
  | cons p t ih =>
    by_cases hp : p.1 = k
    · have hk : ¬ k' = p.1 := by rw [hp]; exact h
      simp [aupdate, alookup, hp, hk, h, ih]
    · by_cases hk : k' = p.1
      · simp [aupdate, alookup, hp, hk]
      · simp [aupdate, alookup, hp, hk, ih]

theorem aupdate_keys {K α : Type} [DecidableEq K]
    (l : List (K × α)) (k : K) (f : α → α) :
    (aupdate l k f).map Prod.fst = l.map Prod.fst := by
  induction l with
  | nil => rfl
  | cons p t ih =>
    by_cases hp : p.1 = k <;> simp [aupdate, hp, ih]

/-! ### State accessors and updates -/

/-- Look up a node by id. -/
def lookupNode (s : St) (n : NodeId) : Option NodeSt :=
  alookup s.nodes n

/-- Look up a socket by id (node id, row index). -/
def lookupSock (s : St) (sid : SockId) : Option Socket :=
  (lookupNode s sid.1).bind fun nd => alookup nd.sockets sid.2

/-- The `connections` list of a socket (empty if the socket is absent). -/
def connsOf (s : St) (sid : SockId) : List SockId :=
  ((lookupSock s sid).map Socket.connections).getD []

/-- The current value of `static_fields[i]['value']`. -/
def staticVal (s : St) (n : NodeId) (i : Nat) : Option Value :=
  ((lookupNode s n).bind fun nd => alookup nd.static_fields i).join

/-- The node's `is_dirty` flag (`false` for a missing node). -/
def dirtyAt (s : St) (n : NodeId) : Bool :=
  ((lookupNode s n).map NodeSt.is_dirty).getD false

/-- Apply a function to one node of the state. -/
def updNode (s : St) (n : NodeId) (f : NodeSt → NodeSt) : St :=
  { s with nodes := aupdate s.nodes n f }

/-- Apply a function to one socket of the state. -/
def updSock (s : St) (sid : SockId) (f : Socket → Socket) : St :=
  updNode s sid.1 fun nd => { nd with sockets := aupdate nd.sockets sid.2 f }

theorem lookupNode_updNode_self (s : St) (n : NodeId) (f : NodeSt → NodeSt) :
    lookupNode (updNode s n f) n = (lookupNode s n).map f := by
  simp [lookupNode, updNode, alookup_aupdate_self]

theorem lookupNode_updNode_ne (s : St) (n m : NodeId) (f : NodeSt → NodeSt)
    (h : m ≠ n) : lookupNode (updNode s n f) m = lookupNode s m := by
  simp [lookupNode, updNode, alookup_aupdate_ne _ _ _ _ h]

/-! ### Python value coercion (`_gather_inputs`, data type conversion) -/

/-- Numeric value of a list of decimal digit characters. -/
def digitsToNat (l : List Char) : Nat :=
  l.foldl (fun a c => a * 10 + (c.toNat - 48)) 0

/-- Parse of Python `float(text)` restricted to the decimal forms the
engine meets: optional surrounding whitespace, optional sign, digits with
an optional fractional part, and an optional decimal exponent. Returns
`none` where Python raises `ValueError`. -/
def parseFloatText (t : String) : Option Rat :=
  let cs0 := t.toList.dropWhile Char.isWhitespace
  let cs := (cs0.reverse.dropWhile Char.isWhitespace).reverse
  let signAndRest : Int × List Char :=
    match cs with
    | '-' :: r => (-1, r)
    | '+' :: r => (1, r)
    | _ => (1, cs)
  let sign := signAndRest.1
  let body := signAndRest.2
  let intPart := body.takeWhile Char.isDigit
  let afterInt := body.dropWhile Char.isDigit
  let fracAndRest : List Char × List Char :=
    match afterInt with
    | '.' :: r => (r.takeWhile Char.isDigit, r.dropWhile Char.isDigit)
    | _ => ([], afterInt)
  let fracPart := fracAndRest.1
  let rest := fracAndRest.2
  if intPart.isEmpty && fracPart.isEmpty then none
  else
    let mantNum : Int :=
      sign * (digitsToNat intPart * 10 ^ fracPart.length + digitsToNat fracPart)
    let mantDen : Nat := 10 ^ fracPart.length
    match rest with
    | [] => some (mkRat mantNum mantDen)
    | 'e' :: r => parseExp mantNum mantDen r
    | 'E' :: r => parseExp mantNum mantDen r
    | _ => none
where
  /-- Parse the exponent tail of a float literal: a negative exponent
  divides the mantissa by the power of ten, a positive one multiplies. -/
  parseExp (mantNum : Int) (mantDen : Nat) (r : List Char) : Option Rat :=
    let signAndRest : Bool × List Char :=
      match r with
      | '-' :: r' => (true, r')
      | '+' :: r' => (false, r')
      | _ => (false, r)
    let eDigits := signAndRest.2.takeWhile Char.isDigit
    let tail := signAndRest.2.dropWhile Char.isDigit
    if eDigits.isEmpty || !tail.isEmpty then none
    else if signAndRest.1 then
      some (mkRat mantNum (mantDen * 10 ^ digitsToNat eDigits))
    else some (mkRat (mantNum * 10 ^ digitsToNat eDigits) mantDen)

/-- Python `float(value)` on an engine value: floats pass through, ints
convert exactly, strings parse; `none` where Python raises. -/
def pyFloat : Value → Option Rat
  | .int n => some (n : Rat)
  | .float q => some q
  | .str t => parseFloatText t

/-- Python `int(q)` on a float: truncation toward zero. -/
def qtrunc (q : Rat) : Int :=
  q.num.tdiv (q.den : Int)

/-- Python `str(value)` (total; the engine never raises here). String
values pass through unchanged; the numeric renderings are a simplified
stand-in that no claim depends on. -/
def pyStr : Value → String
  | .str t => t
  | .int n => toString n
  | .float q => toString q

/-- The data-type conversion block of `_gather_inputs`
(src/core/NLDPNode.py lines 126-140), applied to a non-`None` value:
`DTYPE_INT` rows compute `int(float(value))`, `DTYPE_FLOAT` rows
`float(value)`, `DTYPE_FILE` rows pass through, everything else becomes
`str(value)`; a `ValueError`/`TypeError` is caught and yields `None`. -/
def convertVal (dt : Option DType) (v : Value) : Option Value :=
  match dt with
  | some .int => (pyFloat v).map fun q => Value.int (qtrunc q)
  | some .float => (pyFloat v).map Value.float
  | some .file => some v
  | _ => some (Value.str (pyStr v))

/-! ### Building a node from a layout (`_build_from_layout`) -/

/-- One row of `_build_from_layout`: returns the optional socket,
static-field entry and output-value entry the row contributes. -/
def buildRow (i : Nat) (r : Row) :
    Option (Nat × Socket) × Option (Nat × Option Value) × Option (Nat × Option Value) :=
  match r.field_type with
  | .input => (some (i, ⟨.input, []⟩), none, none)
  | .dynamic => (some (i, ⟨.input, []⟩), some (i, r.default_value), none)
  | .output => (some (i, ⟨.output, []⟩), none, some (i, none))
  | .static => (none, some (i, some (r.default_value.getD (Value.str ""))), none)
  | .other => (none, none, none)

/-- `_build_from_layout` (src/core/NLDPNode.py): creates the sockets,
static fields and output-value slots of a fresh node; a fresh node is
dirty (`self.is_dirty = True` in `__init__`). -/
def buildNode (layout : List Row) : NodeSt :=
  let rows := layout.enum
  { layout := layout
    is_dirty := true
    static_fields := rows.foldr (fun p acc => ((buildRow p.1 p.2).2.1.toList) ++ acc) []
    output_values := rows.foldr (fun p acc => ((buildRow p.1 p.2).2.2.toList) ++ acc) []
    sockets := rows.foldr (fun p acc => ((buildRow p.1 p.2).1.toList) ++ acc) [] }

/-! ### Downstream and upstream adjacency -/

/-- The nodes directly downstream of `n`: for each output socket of `n`
in row order, the owning nodes of its connected sockets
(`get_output_sockets` plus the inner loops of `mark_dirty` and
`is_circular_connection`). -/
def childrenOf (s : St) (n : NodeId) : List NodeId :=
  match lookupNode s n with
  | none => []
  | some nd =>
    nd.sockets.foldr
      (fun p acc =>
        if p.2.kind = SockKind.output then p.2.connections.map Prod.fst ++ acc
        else acc) []

/-- One hop downstream. -/
def StepD (s : St) (x y : NodeId) : Prop :=
  y ∈ childrenOf s x

/-- Reachability by outbound (output-to-input) links, the relation of
claims C1 and C2; reflexive-transitive closure of one downstream hop. -/
def ReachD (s : St) (x y : NodeId) : Prop :=
  Relation.ReflTransGen (StepD s) x y

/-- Absence of directed cycles in the link graph. -/
def AcyclicD (s : St) : Prop :=
  ∀ x y, StepD s x y → ¬ ReachD s y x

/-- The parent contributed by one layout row in `_gather_inputs`: for an
Input or Dynamic row whose socket has connections, the owner of
`socket.connections[0]`. -/
def rowParent (sks : List (Nat × Socket)) (p : Nat × Row) : List NodeId :=
  if p.2.field_type = FieldType.input ∨ p.2.field_type = FieldType.dynamic then
    match alookup sks p.1 with
    | some sock => (sock.connections.take 1).map Prod.fst
    | none => []
  else []

/-- The nodes `_gather_inputs` pulls from directly: for each Input or
Dynamic row whose socket has connections, the owner of
`socket.connections[0]`. -/
def parentsOf (s : St) (n : NodeId) : List NodeId :=
  match lookupNode s n with
  | none => []
  | some nd =>
    nd.layout.enum.foldr (fun p acc => rowParent nd.sockets p ++ acc) []

/-- One pull hop upstream. -/
def StepU (s : St) (x y : NodeId) : Prop :=
  y ∈ parentsOf s x

/-- Upstream reachability along the pull-evaluation edges. -/
def ReachU (s : St) (x y : NodeId) : Prop :=
  Relation.ReflTransGen (StepU s) x y

/-- Absence of cycles in the pull graph. -/
def AcyclicU (s : St) : Prop :=
  ∀ x y, StepU s x y → ¬ ReachU s y x

/-! ### Cycle detection (`NLDPView.is_circular_connection`) -/

/-- The inner double loop of the BFS of `is_circular_connection`: push
every not-yet-visited downstream node, recording it as visited. -/
def enqueueAll (q vis : List NodeId) (l : List NodeId) : List NodeId × List NodeId :=
  l.foldl (fun acc nb => if nb ∈ acc.2 then acc else (acc.1 ++ [nb], acc.2 ++ [nb]))
    (q, vis)

/-- The BFS loop of `is_circular_connection` (src/core/NLDPView.py lines
206-222): pop the queue front, succeed on reaching `target`, otherwise
enqueue unvisited downstream nodes. The fuel argument only bounds the
number of loop iterations; `bfs_fuel_free` below shows the bound used by
`is_circular_connection` is never reached. -/
def bfs (s : St) (target : NodeId) : Nat → List NodeId → List NodeId → Bool
  | 0, _, _ => false
  | _ + 1, [], _ => false
  | f + 1, c :: rest, vis =>
    if c = target then true
    else
      let qv := enqueueAll rest vis (childrenOf s c)
      bfs s target f qv.1 qv.2

/-- `NLDPView.is_circular_connection` (src/core/NLDPView.py lines
196-222): select the output and input sockets of the attempted pair as
the source does, then BFS downstream from the input socket's owner
looking for the output socket's owner. -/
def is_circular_connection (s : St) (a b : SockId) : Bool :=
  match lookupSock s a, lookupSock s b with
  | some sa, some sb =>
    let osock := if sa.kind = SockKind.output then a else b
    let isock := if sb.kind = SockKind.input then b else a
    bfs s osock.1 (s.nodes.length + 1) [isock.1] [isock.1]
  | _, _ => false

/-! ### Dirty propagation (`NLDPNode.mark_dirty`) -/

/-- Set a node's `is_dirty` flag to true. -/
def setDirty (s : St) (n : NodeId) : St :=
  updNode s n fun nd => { nd with is_dirty := true }

/-- `NLDPNode.mark_dirty` (src/core/NLDPNode.py lines 152-164): no-op on
an already dirty node; otherwise set the flag and recurse into every node
connected to an output socket. The fuel argument only bounds recursion
depth; `markDirty_total` shows the bound used by the connect transaction
is never exhausted. -/
def markDirty : Nat → St → NodeId → Option St
  | 0, _, _ => none
  | f + 1, s, n =>
    match lookupNode s n with
    | none => some s
    | some nd =>
      if nd.is_dirty then some s
      else
        let s1 := setDirty s n
        (childrenOf s1 n).foldlM (fun t c => markDirty f t c) s1

/-! ### Evaluation (`NLDPNode.cook` and `_gather_inputs`) -/

/-- Errors escaping a `cook` call: a raised user `evaluate` exception
(identified by an opaque code), or exhaustion of the model's fuel (which
the termination theorem rules out on acyclic graphs). -/
inductive Err where
  | fuelOut
  | evalErr (code : Nat)
deriving DecidableEq, Repr

/-- The environment of user-supplied `evaluate` overrides: given the node
and the gathered inputs, either a raised exception or the returned output
dict. -/
abbrev Ev := NodeId → List (Nat × Option Value) → Except Nat (List (Nat × Option Value))

/-- Reading the upstream value in `_gather_inputs` (src/core/NLDPNode.py
lines 116-119): scan the upstream node's socket dict for the connected
socket object and read `output_values[j]['value']` at its row. -/
def readUpstream (s : St) (us : SockId) : Option Value :=
  match lookupNode s us.1 with
  | none => none
  | some nd =>
    if (alookup nd.sockets us.2).isSome then (alookup nd.output_values us.2).join
    else none

/-- The incoming link of the socket at row `idx` of node `n`, when the
socket exists and its `connections` list is non-empty
(`if socket and socket.connections` in `_gather_inputs`): the first
connected peer, `socket.connections[0]`. -/
def linkOf (s : St) (n : NodeId) (idx : Nat) : Option SockId :=
  match lookupSock s (n, idx) with
  | some sock => sock.connections.head?
  | none => none

/-- The raw (pre-conversion) value obtained by one loop iteration of
`_gather_inputs` (src/core/NLDPNode.py lines 104-125) for the row at
index `idx`, parameterised by the recursive `cook` call used on the
upstream node: an Input or Dynamic row with a link cooks the upstream
node and reads its output, a Dynamic row without a link and a Static row
read the local field, and everything else stays `None`. -/
def gatherRaw (cookF : St → NodeId → St × Option Err) (s : St) (n : NodeId)
    (idx : Nat) (r : Row) : St × Except Err (Option Value) :=
  if r.field_type = FieldType.input ∨ r.field_type = FieldType.dynamic then
    match linkOf s n idx with
    | some us =>
      let c := cookF s us.1
      (c.1,
        match c.2 with
        | none => Except.ok (readUpstream c.1 us)
        | some e => Except.error e)
    | none =>
      if r.field_type = FieldType.dynamic then (s, Except.ok (staticVal s n idx))
      else (s, Except.ok none)
  else if r.field_type = FieldType.static then (s, Except.ok (staticVal s n idx))
  else (s, Except.ok none)

/-- One loop iteration of `_gather_inputs` (src/core/NLDPNode.py lines
104-140) for the row at index `idx`: obtain the raw value from the link,
the local field or nowhere, then apply the data-type conversion of lines
126-140. -/
def gatherOne (cookF : St → NodeId → St × Option Err) (s : St) (n : NodeId)
    (idx : Nat) (r : Row) : St × Except Err (Option Value) :=
  let raw := gatherRaw cookF s n idx r
  (raw.1,
    match raw.2 with
    | Except.ok v => Except.ok (v.bind (convertVal r.data_type))
    | Except.error e => Except.error e)

/-- The whole `_gather_inputs` loop over the layout rows starting at
index `idx`, threading the state through the recursive upstream cooks and
propagating a raised exception. -/
def gatherRows (cookF : St → NodeId → St × Option Err) (n : NodeId) :
    List Row → Nat → St → St × Except Err (List (Nat × Option Value))
  | [], _, s => (s, .ok [])
  | r :: rest, idx, s =>
    match gatherOne cookF s n idx r with
    | (s₁, .error e) => (s₁, .error e)
    | (s₁, .ok v) =>
      match gatherRows cookF n rest (idx + 1) s₁ with
      | (s₂, .error e) => (s₂, .error e)
      | (s₂, .ok vs) => (s₂, .ok ((idx, v) :: vs))

/-- `NLDPNode._store_outputs` (src/core/NLDPNode.py lines 144-150):
store each returned output value whose row index exists in
`output_values`. -/
def storeOutputs (nd : NodeSt) (outs : List (Nat × Option Value)) : NodeSt :=
  { nd with
    output_values :=
      outs.foldl
        (fun ov p =>
          if (alookup ov p.1).isSome then aupdate ov p.1 (fun _ => p.2) else ov)
        nd.output_values }

/-- `NLDPNode.cook` (src/core/NLDPNode.py lines 66-86): no-op when clean;
otherwise gather the inputs (recursively cooking upstream nodes), run the
user `evaluate`, store the outputs and clear the dirty flag. A raised
`evaluate` exception aborts before the store and the flag clear. -/
def cook : Nat → Ev → St → NodeId → St × Option Err
  | 0, _, s, _ => (s, some Err.fuelOut)
  | f + 1, ev, s, n =>
    match lookupNode s n with
    | none => (s, none)
    | some nd =>
      if nd.is_dirty then
        match gatherRows (cook f ev) n nd.layout 0 s with
        | (s₁, .error e) => (s₁, some e)
        | (s₁, .ok ins) =>
          match ev n ins with
          | .error c => (s₁, some (Err.evalErr c))
          | .ok outs =>
            (updNode s₁ n fun nd' => { storeOutputs nd' outs with is_dirty := false },
              none)
      else (s, none)

/-! ### Wire transactions (`NLDPView.mouseReleaseEvent`, wire cutting) -/

/-- Append a peer socket to a socket's `connections` list
(`self.connections.append(...)`). -/
def appendConn (v : SockId) (sk : Socket) : Socket :=
  { sk with connections := sk.connections ++ [v] }

/-- `NLDPWire.__init__` (src/core/NLDPWire.py lines 32-34): append each
endpoint to the other's `connections` list and add the wire to the
scene. -/
def addWireAdj (s : St) (a b : SockId) : St :=
  let s1 := updSock s a (appendConn b)
  let s2 := updSock s1 b (appendConn a)
  { s2 with wires := s2.wires ++ [(a, b)] }

/-- Removal of a wire from the scene together with the cleanup of
`NLDPWire.__del__` (src/core/NLDPWire.py lines 59-67): drop the wire and
erase each endpoint from the other's `connections` list (`list.remove`
drops the first occurrence; the `in` guards make a missing entry a
no-op, which `List.erase` also is). -/
def delWire (s : St) (w : SockId × SockId) : St :=
  let s1 : St := { s with wires := s.wires.erase w }
  let s2 := updSock s1 w.1 fun sk => { sk with connections := sk.connections.erase w.2 }
  updSock s2 w.2 fun sk => { sk with connections := sk.connections.erase w.1 }

/-- The scan of `mouseReleaseEvent` (src/core/NLDPView.py lines 495-501)
for the wire joining the input socket to its previous partner, in either
orientation. -/
def findOldWire (s : St) (inp old : SockId) : Option (SockId × SockId) :=
  s.wires.find? fun w => (w.1 = inp ∧ w.2 = old) ∨ (w.1 = old ∧ w.2 = inp)

/-- The wire-completion transaction of `NLDPView.mouseReleaseEvent`
(src/core/NLDPView.py lines 482-514), for a drag from socket `a` released
over socket `b`: reject unless the sockets are distinct, of opposite
kinds and non-circular; otherwise remove the input socket's previous
wire if any, create the new wire, and mark the input-side node dirty.
The fuel handed to `markDirty` is never exhausted (`markDirty_total`),
so the `getD` fallback never fires. -/
def connectTx (s : St) (a b : SockId) : St :=
  match lookupSock s a, lookupSock s b with
  | some sa, some sb =>
    if a ≠ b ∧ sa.kind ≠ sb.kind ∧ is_circular_connection s a b = false then
      let inp := if sb.kind = SockKind.input then b else a
      let s1 :=
        match connsOf s inp with
        | [] => s
        | old :: _ =>
          match findOldWire s inp old with
          | some w => delWire s w
          | none => s
      let s2 := addWireAdj s1 a b
      (markDirty (s2.nodes.length + 2) s2 inp.1).getD s2
    else s
  | _, _ => s

/-- Wire cutting (src/core/NLDPView.py lines 336-346): the selected wire
is removed from the scene, which triggers the `__del__` adjacency
cleanup. Nothing else happens — in particular no node is marked dirty. -/
def disconnectTx (s : St) (w : SockId × SockId) : St :=
  delWire s w

/-! ### Well-formedness of a graph state -/

/-- Node ids are distinct. -/
def KeysND (s : St) : Prop :=
  (s.nodes.map Prod.fst).Nodup

/-- Every downstream hop lands on a node of the graph. -/
def ConnClosed (s : St) : Prop :=
  ∀ p ∈ s.nodes, ∀ c ∈ childrenOf s p.1, c ∈ s.nodes.map Prod.fst

/-- Check that the socket `us` exists, is an output socket, and lists
`back` among its connections. -/
def backOk (s : St) (us back : SockId) : Bool :=
  match lookupSock s us with
  | some sk => decide (sk.kind = SockKind.output ∧ back ∈ sk.connections)
  | none => false

/-- Every connection of an input socket points back to an existing output
socket whose connections list knows the input socket: the symmetric
adjacency that `NLDPWire.__init__` establishes. -/
def AdjSym (s : St) : Prop :=
  ∀ p ∈ s.nodes, ∀ q ∈ p.2.sockets, q.2.kind = SockKind.input →
    ∀ us ∈ q.2.connections, backOk s us (p.1, q.1) = true

instance (s : St) : Decidable (KeysND s) := by
  unfold KeysND; infer_instance

instance (s : St) : Decidable (ConnClosed s) := by
  unfold ConnClosed; infer_instance

instance (s : St) : Decidable (AdjSym s) := by
  unfold AdjSym; infer_instance

/-- The dirty set is downstream-closed: every node downstream of a dirty
node is dirty. Spec section 4.2 states this is an invariant of every
editor-produced state ("the dirty set is always a downstream-closed
superset of any directly-edited node"). -/
def DirtyClosed (s : St) : Prop :=
  ∀ p ∈ s.nodes, p.2.is_dirty = true → ∀ c ∈ childrenOf s p.1, dirtyAt s c = true

instance (s : St) : Decidable (DirtyClosed s) := by
  unfold DirtyClosed; infer_instance

/-- Socket keys inside each node are distinct (guaranteed by
`_build_from_layout`, which keys sockets by distinct row indices). -/
def SockND (s : St) : Prop :=
  ∀ p ∈ s.nodes, (p.2.sockets.map Prod.fst).Nodup

instance (s : St) : Decidable (SockND s) := by
  unfold SockND; infer_instance

/-- The node ids of a state. -/
def keysOf (s : St) : List NodeId :=
  s.nodes.map Prod.fst

/-! ### Generic association-list facts -/

theorem alookup_mem {K α : Type} [DecidableEq K] {l : List (K × α)} {k : K} {v : α}
    (h : alookup l k = some v) : (k, v) ∈ l := by
  induction l with
  | nil => simp [alookup] at h
  | cons p t ih =>
    by_cases hk : k = p.1
    · simp only [alookup, if_pos hk] at h
      cases p with
      | mk a b =>
        subst hk
        cases Option.some.inj h
        exact List.mem_cons_self _ _
    · simp only [alookup, if_neg hk] at h
      exact .tail _ (ih h)

theorem alookup_isSome_of_mem {K α : Type} [DecidableEq K] {l : List (K × α)}
    {p : K × α} (h : p ∈ l) : (alookup l p.1).isSome := by
  induction l with
  | nil => simp at h
  | cons q t ih =>
    by_cases hk : p.1 = q.1
    · simp [alookup, hk]
    · rcases List.mem_cons.mp h with h | h
      · cases h; simp at hk
      · simpa [alookup, hk] using ih h

theorem alookup_of_mem_nodup {K α : Type} [DecidableEq K] {l : List (K × α)}
    (hnd : (l.map Prod.fst).Nodup) {p : K × α} (hm : p ∈ l) :
    alookup l p.1 = some p.2 := by
  induction l with
  | nil => simp at hm
  | cons q t ih =>
    rcases List.mem_cons.mp hm with h | h
    · subst h; simp [alookup]
    · have hq : p.1 ≠ q.1 := by
        intro he
        have : q.1 ∈ t.map Prod.fst := he ▸ List.mem_map_of_mem Prod.fst h
        exact (List.nodup_cons.mp hnd).1 this
      simp [alookup, hq, ih (List.nodup_cons.mp hnd).2 h]

/-! ### Children membership characterizations -/

theorem children_fold_mem (l : List (Nat × Socket)) (y : NodeId) :
    (y ∈ l.foldr
        (fun p acc =>
          if p.2.kind = SockKind.output then p.2.connections.map Prod.fst ++ acc
          else acc) []) ↔
      ∃ p ∈ l, p.2.kind = SockKind.output ∧ ∃ cn ∈ p.2.connections, cn.1 = y := by
  induction l with
  | nil => simp
  | cons q t ih =>
    by_cases hk : q.2.kind = SockKind.output
    · simp only [List.foldr_cons, if_pos hk, List.mem_append, List.mem_map, ih]
      constructor
      · rintro (⟨cn, hcn, rfl⟩ | ⟨p, hp, hout, hcn⟩)
        · exact ⟨q, List.mem_cons_self _ _, hk, cn, hcn, rfl⟩
        · exact ⟨p, List.mem_cons_of_mem _ hp, hout, hcn⟩
      · rintro ⟨p, hp, hout, cn, hcn, rfl⟩
        rcases List.mem_cons.mp hp with h | h
        · subst h; exact Or.inl ⟨cn, hcn, rfl⟩
        · exact Or.inr ⟨p, h, hout, cn, hcn, rfl⟩
    · simp only [List.foldr_cons, if_neg hk, ih]
      constructor
      · rintro ⟨p, hp, hout, hcn⟩
        exact ⟨p, List.mem_cons_of_mem _ hp, hout, hcn⟩
      · rintro ⟨p, hp, hout, cn, hcn, rfl⟩
        rcases List.mem_cons.mp hp with h | h
        · subst h; exact absurd hout hk
        · exact ⟨p, h, hout, cn, hcn, rfl⟩

theorem mem_childrenOf {s : St} {x y : NodeId} :
    y ∈ childrenOf s x ↔
      ∃ nd, lookupNode s x = some nd ∧
        ∃ p ∈ nd.sockets, p.2.kind = SockKind.output ∧ ∃ cn ∈ p.2.connections, cn.1 = y := by
  unfold childrenOf
  cases h : lookupNode s x with
  | none => simp
  | some nd => simp [children_fold_mem]

theorem childrenOf_subset_keys {s : St} (hc : ConnClosed s) {x c : NodeId}
    (h : c ∈ childrenOf s x) : c ∈ keysOf s := by
  rcases mem_childrenOf.mp h with ⟨nd, hnd, _⟩
  exact hc (x, nd) (alookup_mem hnd) c h

/-! ### BFS correctness (`is_circular_connection`) -/

theorem enqueueAll_spec :
    ∀ (l q vis : List NodeId), ∃ nl,
      enqueueAll q vis l = (q ++ nl, vis ++ nl) ∧ nl.Nodup ∧
      (∀ x ∈ nl, x ∈ l ∧ x ∉ vis) ∧ (∀ x ∈ l, x ∈ vis ∨ x ∈ nl) := by
  intro l
  induction l with
  | nil =>
    intro q vis
    exact ⟨[], by simp [enqueueAll], List.nodup_nil, by simp, by simp⟩
  | cons c t ih =>
    intro q vis
    by_cases hc : c ∈ vis
    · rcases ih q vis with ⟨nl, heq, hnd, hmem, hcov⟩
      refine ⟨nl, ?_, hnd, ?_, ?_⟩
      · simpa [enqueueAll, hc] using heq
      · intro x hx
        exact ⟨List.mem_cons_of_mem _ (hmem x hx).1, (hmem x hx).2⟩
      · intro x hx
        rcases List.mem_cons.mp hx with rfl | hx
        · exact Or.inl hc
        · exact hcov x hx
    · rcases ih (q ++ [c]) (vis ++ [c]) with ⟨nl, heq, hnd, hmem, hcov⟩
      refine ⟨c :: nl, ?_, ?_, ?_, ?_⟩
      · have : enqueueAll q vis (c :: t) = enqueueAll (q ++ [c]) (vis ++ [c]) t := by
          simp [enqueueAll, hc]
        rw [this, heq]
        simp
      · refine List.nodup_cons.mpr ⟨?_, hnd⟩
        intro hcnl
        exact (hmem c hcnl).2 (by simp)
      · intro x hx
        rcases List.mem_cons.mp hx with rfl | hx
        · exact ⟨List.mem_cons_self _ _, hc⟩
        · rcases hmem x hx with ⟨hxt, hxv⟩
          exact ⟨List.mem_cons_of_mem _ hxt, fun hv => hxv (by simp [hv])⟩
      · intro x hx
        rcases List.mem_cons.mp hx with rfl | hx
        · exact Or.inr (List.mem_cons_self _ _)
        · rcases hcov x hx with hv | hnl
          · rcases List.mem_append.mp hv with hv | hv
            · exact Or.inl hv
            · simp at hv
              exact Or.inr (hv ▸ List.mem_cons_self _ _)
          · exact Or.inr (List.mem_cons_of_mem _ hnl)

theorem bfs_sound {s : St} {target root : NodeId} :
    ∀ (f : Nat) (q vis : List NodeId),
      (∀ x ∈ vis, ReachD s root x) → (∀ x ∈ q, x ∈ vis) →
      bfs s target f q vis = true → ReachD s root target := by
  intro f
  induction f with
  | zero => intro q vis _ _ h; simp [bfs] at h
  | succ f ih =>
    intro q vis hreach hqv h
    match q with
    | [] => simp [bfs] at h
    | c :: rest =>
      by_cases hct : c = target
      · subst hct
        exact hreach c (hqv c (List.mem_cons_self _ _))
      · rw [bfs, if_neg hct] at h
        rcases enqueueAll_spec (childrenOf s c) rest vis with ⟨nl, heq, _, hmem, _⟩
        rw [heq] at h
        have hcvis : ReachD s root c := hreach c (hqv c (List.mem_cons_self _ _))
        refine ih (rest ++ nl) (vis ++ nl) ?_ ?_ h
        · intro x hx
          rcases List.mem_append.mp hx with hx | hx
          · exact hreach x hx
          · exact Relation.ReflTransGen.tail hcvis (hmem x hx).1
        · intro x hx
          rcases List.mem_append.mp hx with hx | hx
          · exact List.mem_append_left _ (hqv x (List.mem_cons_of_mem _ hx))
          · exact List.mem_append_right _ hx

theorem closed_mem_of_reach {s : St} {vis : List NodeId} {root y : NodeId}
    (hcl : ∀ x ∈ vis, ∀ c ∈ childrenOf s x, c ∈ vis) (hr : root ∈ vis)
    (h : ReachD s root y) : y ∈ vis := by
  induction h with
  | refl => exact hr
  | tail _ hstep ih => exact hcl _ ih _ hstep

theorem nodup_subset_length_le {l d : List NodeId} (hnd : d.Nodup)
    (hsub : ∀ x ∈ d, x ∈ l) : d.length ≤ l.dedup.length := by
  have h1 : d.toFinset.card = d.length := List.toFinset_card_of_nodup hnd
  have h2 : d.toFinset ⊆ l.toFinset := by
    intro x hx
    exact List.mem_toFinset.mpr (hsub x (List.mem_toFinset.mp hx))
  calc d.length = d.toFinset.card := h1.symm
    _ ≤ l.toFinset.card := Finset.card_le_card h2
    _ = l.dedup.length := List.card_toFinset l

theorem bfs_complete {s : St} {target root : NodeId}
    (hconn : ConnClosed s) :
    ∀ (f : Nat) (q vis : List NodeId),
      (∀ x ∈ vis, x ∈ keysOf s) → vis.Nodup → q.Nodup → (∀ x ∈ q, x ∈ vis) →
      (∀ x ∈ vis, x ∉ q → x ≠ target ∧ ∀ c ∈ childrenOf s x, c ∈ vis) →
      root ∈ vis → ReachD s root target →
      ((keysOf s).dedup.length - vis.length) + q.length < f →
      bfs s target f q vis = true := by
  intro f
  induction f with
  | zero => intro q vis _ _ _ _ _ _ _ hm; omega
  | succ f ih =>
    intro q vis hvk hvnd hqnd hqv hcl hroot hreach hm
    match q with
    | [] =>
      exfalso
      have hclosed : ∀ x ∈ vis, ∀ c ∈ childrenOf s x, c ∈ vis := by
        intro x hx
        exact (hcl x hx (by simp)).2
      have := closed_mem_of_reach hclosed hroot hreach
      exact (hcl target this (by simp)).1 rfl
    | c :: rest =>
      by_cases hct : c = target
      · rw [bfs, if_pos hct]
      · rw [bfs, if_neg hct]
        rcases enqueueAll_spec (childrenOf s c) rest vis with ⟨nl, heq, hnlnd, hmem, hcov⟩
        rw [heq]
        have hcvis : c ∈ vis := hqv c (List.mem_cons_self _ _)
        have hnl_not_vis : ∀ x ∈ nl, x ∉ vis := fun x hx => (hmem x hx).2
        have hnl_keys : ∀ x ∈ nl, x ∈ keysOf s := fun x hx =>
          childrenOf_subset_keys hconn (hmem x hx).1
        have hvnd' : (vis ++ nl).Nodup :=
          List.Nodup.append hvnd hnlnd
            (fun x hx hnx => hnl_not_vis x hnx hx)
        have hlen : (vis ++ nl).length ≤ (keysOf s).dedup.length := by
          refine nodup_subset_length_le hvnd' ?_
          intro x hx
          rcases List.mem_append.mp hx with hx | hx
          · exact hvk x hx
          · exact hnl_keys x hx
        refine ih (rest ++ nl) (vis ++ nl) ?_ hvnd' ?_ ?_ ?_ ?_ hreach ?_
        · intro x hx
          rcases List.mem_append.mp hx with hx | hx
          · exact hvk x hx
          · exact hnl_keys x hx
        · refine List.Nodup.append ((List.nodup_cons.mp hqnd).2) hnlnd ?_
          intro x hx hnx
          exact hnl_not_vis x hnx (hqv x (List.mem_cons_of_mem _ hx))
        · intro x hx
          rcases List.mem_append.mp hx with hx | hx
          · exact List.mem_append_left _ (hqv x (List.mem_cons_of_mem _ hx))
          · exact List.mem_append_right _ hx
        · intro x hx hxq
          rcases List.mem_append.mp hx with hxv | hxnl
          · by_cases hxc : x = c
            · subst hxc
              refine ⟨hct, ?_⟩
              intro ch hch
              rcases hcov ch hch with h | h
              · exact List.mem_append_left _ h
              · exact List.mem_append_right _ h
            · have hxnq : x ∉ c :: rest := by
                intro hxin
                rcases List.mem_cons.mp hxin with h | h
                · exact hxc h
                · exact hxq (List.mem_append_left _ h)
              rcases hcl x hxv hxnq with ⟨h1, h2⟩
              exact ⟨h1, fun ch hch => List.mem_append_left _ (h2 ch hch)⟩
          · exact absurd (List.mem_append_right rest hxnl) hxq
        · exact List.mem_append_left _ hroot
        · have hvl : vis.length + nl.length ≤ (keysOf s).dedup.length := by
            simpa using hlen
          simp only [List.length_append, List.length_cons] at hm ⊢
          omega

/-- Executable reachability test, used to state decidable acyclicity:
BFS from `root` looking for `target` with the same fuel policy as
`is_circular_connection`. -/
def reachB (s : St) (root target : NodeId) : Bool :=
  bfs s target (s.nodes.length + 1) [root] [root]

theorem reachB_iff {s : St} (hconn : ConnClosed s) {root target : NodeId}
    (hroot : root ∈ keysOf s) :
    reachB s root target = true ↔ ReachD s root target := by
  constructor
  · intro h
    exact bfs_sound (s.nodes.length + 1) [root] [root]
      (by intro x hx; simp at hx; subst hx; exact Relation.ReflTransGen.refl)
      (by intro x hx; exact hx) h
  · intro h
    refine bfs_complete hconn (s.nodes.length + 1) [root] [root] ?_ ?_ ?_ ?_ ?_ ?_ h ?_
    · intro x hx; simp at hx; subst hx; exact hroot
    · simp
    · simp
    · intro x hx; exact hx
    · intro x hx hnx
      simp at hx
      simp [hx] at hnx
    · simp
    · have h1 : (keysOf s).dedup.length ≤ (keysOf s).length := List.Sublist.length_le (List.dedup_sublist _)
      have h2 : (keysOf s).length = s.nodes.length := by simp [keysOf]
      have h3 : 0 < (keysOf s).dedup.length :=
        List.length_pos_of_mem (List.mem_dedup.mpr hroot)
      simp only [List.length_cons, List.length_nil]
      omega

/-! ### The edge added by a new wire -/

theorem exists_mem_aupdate {K α : Type} [DecidableEq K]
    (l : List (K × α)) (k : K) (f : α → α) (P : K × α → Prop) :
    (∃ p ∈ aupdate l k f, P p) ↔
      (∃ p ∈ l, p.1 ≠ k ∧ P p) ∨ (∃ p ∈ l, p.1 = k ∧ P (p.1, f p.2)) := by
  induction l with
  | nil => simp [aupdate]
  | cons q t ih =>
    by_cases hq : q.1 = k
    · simp only [aupdate, if_pos hq, List.mem_cons]
      constructor
      · rintro ⟨p, hp | hp, hP⟩
        · subst hp
          exact Or.inr ⟨q, Or.inl rfl, hq, hP⟩
        · rcases ih.mp ⟨p, hp, hP⟩ with ⟨p', hp', h1, h2⟩ | ⟨p', hp', h1, h2⟩
          · exact Or.inl ⟨p', Or.inr hp', h1, h2⟩
          · exact Or.inr ⟨p', Or.inr hp', h1, h2⟩
      · rintro (⟨p, hp | hp, h1, h2⟩ | ⟨p, hp | hp, h1, h2⟩)
        · subst hp; exact absurd hq h1
        · rcases ih.mpr (Or.inl ⟨p, hp, h1, h2⟩) with ⟨p', hp', hP⟩
          exact ⟨p', Or.inr hp', hP⟩
        · subst hp
          exact ⟨(p.1, f p.2), Or.inl rfl, h2⟩
        · rcases ih.mpr (Or.inr ⟨p, hp, h1, h2⟩) with ⟨p', hp', hP⟩
          exact ⟨p', Or.inr hp', hP⟩
    · simp only [aupdate, if_neg hq, List.mem_cons]
      constructor
      · rintro ⟨p, hp | hp, hP⟩
        · subst hp
          exact Or.inl ⟨p, Or.inl rfl, hq, hP⟩
        · rcases ih.mp ⟨p, hp, hP⟩ with ⟨p', hp', h1, h2⟩ | ⟨p', hp', h1, h2⟩
          · exact Or.inl ⟨p', Or.inr hp', h1, h2⟩
          · exact Or.inr ⟨p', Or.inr hp', h1, h2⟩
      · rintro (⟨p, hp | hp, h1, h2⟩ | ⟨p, hp | hp, h1, h2⟩)
        · subst hp; exact ⟨p, Or.inl rfl, h2⟩
        · rcases ih.mpr (Or.inl ⟨p, hp, h1, h2⟩) with ⟨p', hp', hP⟩
          exact ⟨p', Or.inr hp', hP⟩
        · subst hp; exact absurd h1 hq
        · rcases ih.mpr (Or.inr ⟨p, hp, h1, h2⟩) with ⟨p', hp', hP⟩
          exact ⟨p', Or.inr hp', hP⟩

theorem exists_key_nodup {K α : Type} [DecidableEq K] {l : List (K × α)} {k : K}
    {v : α} (hnd : (l.map Prod.fst).Nodup) (hv : alookup l k = some v)
    (P : K × α → Prop) : (∃ p ∈ l, p.1 = k ∧ P p) ↔ P (k, v) := by
  constructor
  · rintro ⟨p, hp, hk, hP⟩
    have := alookup_of_mem_nodup hnd hp
    rw [hk, hv] at this
    have hpv : p = (k, v) := by
      cases p with
      | mk k' v' =>
        cases hk
        cases Option.some.inj this
        rfl
    rw [hpv] at hP
    exact hP
  · intro h
    exact ⟨(k, v), alookup_mem hv, rfl, h⟩

theorem lookupSock_eq_some {s : St} {c : SockId} {sc : Socket}
    (hc : lookupSock s c = some sc) :
    ∃ nd, lookupNode s c.1 = some nd ∧ alookup nd.sockets c.2 = some sc := by
  unfold lookupSock at hc
  cases hnd : lookupNode s c.1 with
  | none => rw [hnd] at hc; simp at hc
  | some nd => rw [hnd] at hc; exact ⟨nd, rfl, hc⟩

theorem mem_childrenOf_some {s : St} {x : NodeId} {nd : NodeSt}
    (h : lookupNode s x = some nd) (y : NodeId) :
    y ∈ childrenOf s x ↔
      ∃ p ∈ nd.sockets, p.2.kind = SockKind.output ∧
        ∃ cn ∈ p.2.connections, cn.1 = y := by
  unfold childrenOf
  rw [h]
  exact children_fold_mem _ _

theorem mem_children_updSock_append {s : St} {c v : SockId} {sc : Socket}
    (hND : SockND s) (hc : lookupSock s c = some sc) (x y : NodeId) :
    (y ∈ childrenOf (updSock s c (appendConn v)) x) ↔
      y ∈ childrenOf s x ∨ (sc.kind = SockKind.output ∧ x = c.1 ∧ y = v.1) := by
  rcases lookupSock_eq_some hc with ⟨nd, hnd, hsk⟩
  have hndnd : (nd.sockets.map Prod.fst).Nodup := hND (c.1, nd) (alookup_mem hnd)
  by_cases hx : x = c.1
  · subst hx
    have hlook : lookupNode (updSock s c (appendConn v)) c.1 =
        some { nd with sockets := aupdate nd.sockets c.2 (appendConn v) } := by
      unfold updSock
      rw [lookupNode_updNode_self, hnd]
      rfl
    rw [mem_childrenOf_some hlook, mem_childrenOf_some hnd]
    rw [show ({ nd with sockets := aupdate nd.sockets c.2 (appendConn v) } : NodeSt).sockets =
        aupdate nd.sockets c.2 (appendConn v) from rfl]
    rw [exists_mem_aupdate]
    rw [exists_key_nodup hndnd hsk]
    simp only [appendConn]
    constructor
    · rintro (⟨p, hp, _, hP⟩ | ⟨hkind, cn, hcn, hcy⟩)
      · exact Or.inl ⟨p, hp, hP⟩
      · rcases List.mem_append.mp hcn with hcn | hcn
        · exact Or.inl ⟨(c.2, sc), alookup_mem hsk, hkind, cn, hcn, hcy⟩
        · have : cn = v := by simpa using hcn
          subst this
          exact Or.inr ⟨hkind, by trivial, hcy.symm⟩
    · rintro (⟨p, hp, hkind, cn, hcn, hcy⟩ | ⟨hkind, _, hyv⟩)
      · by_cases hpk : p.1 = c.2
        · have hpsc : p = (c.2, sc) := by
            have := alookup_of_mem_nodup hndnd hp
            rw [hpk, hsk] at this
            cases p with
            | mk pk pv =>
              cases hpk
              cases Option.some.inj this
              rfl
          refine Or.inr ?_
          rw [hpsc] at hkind hcn
          exact ⟨hkind, cn, List.mem_append_left _ hcn, hcy⟩
        · exact Or.inl ⟨p, hp, hpk, hkind, cn, hcn, hcy⟩
      · refine Or.inr ⟨hkind, v, List.mem_append_right _ ?_, hyv.symm⟩
        exact List.mem_singleton.mpr rfl
  · have hlook : lookupNode (updSock s c (appendConn v)) x = lookupNode s x :=
      lookupNode_updNode_ne _ _ _ _ hx
    rw [mem_childrenOf, mem_childrenOf, hlook]
    constructor
    · intro h; exact Or.inl h
    · rintro (h | ⟨_, hxc, _⟩)
      · exact h
      · exact absurd hxc hx

theorem childrenOf_only_nodes (ns : List (NodeId × NodeSt)) (w w' : List (SockId × SockId))
    (x : NodeId) : childrenOf ⟨ns, w⟩ x = childrenOf ⟨ns, w'⟩ x := rfl

theorem lookupSock_updSock_ne {s : St} {a b : SockId} (f : Socket → Socket)
    (h : b ≠ a) : lookupSock (updSock s a f) b = lookupSock s b := by
  by_cases hn : b.1 = a.1
  · unfold lookupSock updSock
    rw [hn, lookupNode_updNode_self]
    cases hnd : lookupNode s a.1 with
    | none => rfl
    | some nd =>
      have hr : b.2 ≠ a.2 := by
        intro he
        exact h (Prod.ext hn he)
      show (some _).bind _ = (some nd).bind _
      simp only [Option.bind_some]
      exact alookup_aupdate_ne _ _ _ _ hr
  · unfold lookupSock updSock
    rw [lookupNode_updNode_ne _ _ _ _ hn]

theorem mem_aupdate {K α : Type} [DecidableEq K] {l : List (K × α)} {k : K}
    {f : α → α} {p : K × α} (hp : p ∈ aupdate l k f) :
    ∃ q ∈ l, p = if q.1 = k then (q.1, f q.2) else q := by
  induction l with
  | nil => simp [aupdate] at hp
  | cons q t ih =>
    rcases List.mem_cons.mp hp with h | h
    · exact ⟨q, List.mem_cons_self _ _, h⟩
    · rcases ih h with ⟨q', hq', he⟩
      exact ⟨q', List.mem_cons_of_mem _ hq', he⟩

theorem sockND_updSock {s : St} (c : SockId) (f : Socket → Socket) (h : SockND s) :
    SockND (updSock s c f) := by
  intro p hp
  rcases mem_aupdate hp with ⟨q, hq, he⟩
  by_cases hk : q.1 = c.1
  · rw [he, if_pos hk]
    simpa [aupdate_keys] using h q hq
  · rw [he, if_neg hk]
    exact h q hq

theorem childrenOf_set_wires (t : St) (w : List (SockId × SockId)) (z : NodeId) :
    childrenOf { t with wires := w } z = childrenOf t z := by
  cases t
  exact childrenOf_only_nodes _ _ _ _

/-- The step relation obtained by wiring output socket `a` to input
socket `b`: exactly the old steps plus the single edge from `a`'s node
to `b`'s node. -/
theorem stepD_addWireAdj {s : St} {a b : SockId} {sa sb : Socket}
    (hND : SockND s) (ha : lookupSock s a = some sa) (hb : lookupSock s b = some sb)
    (hao : sa.kind = SockKind.output) (hbi : sb.kind = SockKind.input)
    (hab : a ≠ b) (x y : NodeId) :
    StepD (addWireAdj s a b) x y ↔ StepD s x y ∨ (x = a.1 ∧ y = b.1) := by
  unfold addWireAdj StepD
  rw [childrenOf_set_wires]
  have hb1 : lookupSock (updSock s a (appendConn b)) b = some sb := by
    rw [lookupSock_updSock_ne _ (Ne.symm hab)]
    exact hb
  have h2 := mem_children_updSock_append (c := b) (v := a)
    (sockND_updSock a (appendConn b) hND) hb1 x y
  have h1 := mem_children_updSock_append (c := a) (v := b) hND ha x y
  rw [h2, h1]
  constructor
  · rintro ((h | ⟨hk, hx, hy⟩) | ⟨hk, hx, hy⟩)
    · exact Or.inl h
    · exact Or.inr ⟨hx, hy⟩
    · rw [hbi] at hk
      cases hk
  · rintro (h | ⟨hx, hy⟩)
    · exact Or.inl (Or.inl h)
    · exact Or.inl (Or.inr ⟨hao, hx, hy⟩)

/-- The same characterization when the drag went from the input socket
`a` to the output socket `b`: the added edge runs from `b`'s node to
`a`'s node. -/
theorem stepD_addWireAdj_rev {s : St} {a b : SockId} {sa sb : Socket}
    (hND : SockND s) (ha : lookupSock s a = some sa) (hb : lookupSock s b = some sb)
    (hai : sa.kind = SockKind.input) (hbo : sb.kind = SockKind.output)
    (hab : a ≠ b) (x y : NodeId) :
    StepD (addWireAdj s a b) x y ↔ StepD s x y ∨ (x = b.1 ∧ y = a.1) := by
  unfold addWireAdj StepD
  rw [childrenOf_set_wires]
  have hb1 : lookupSock (updSock s a (appendConn b)) b = some sb := by
    rw [lookupSock_updSock_ne _ (Ne.symm hab)]
    exact hb
  have h2 := mem_children_updSock_append (c := b) (v := a)
    (sockND_updSock a (appendConn b) hND) hb1 x y
  have h1 := mem_children_updSock_append (c := a) (v := b) hND ha x y
  rw [h2, h1]
  constructor
  · rintro ((h | ⟨hk, hx, hy⟩) | ⟨hk, hx, hy⟩)
    · exact Or.inl h
    · rw [hai] at hk
      cases hk
    · exact Or.inr ⟨hx, hy⟩
  · rintro (h | ⟨hx, hy⟩)
    · exact Or.inl (Or.inl h)
    · exact Or.inr ⟨hbo, hx, hy⟩

/-! ### Adding one edge to an acyclic relation -/

theorem reach_addEdge_decomp {α : Type} {r r' : α → α → Prop} {o i : α}
    (hiff : ∀ x y, r' x y ↔ r x y ∨ (x = o ∧ y = i)) {x y : α}
    (h : Relation.ReflTransGen r' x y) :
    Relation.ReflTransGen r x y ∨
      (Relation.ReflTransGen r x o ∧ Relation.ReflTransGen r i y) := by
  induction h with
  | refl => exact Or.inl Relation.ReflTransGen.refl
  | tail hp hstep ih =>
    rcases (hiff _ _).mp hstep with hr | ⟨rfl, rfl⟩
    · rcases ih with h1 | ⟨h1, h2⟩
      · exact Or.inl (Relation.ReflTransGen.tail h1 hr)
      · exact Or.inr ⟨h1, Relation.ReflTransGen.tail h2 hr⟩
    · rcases ih with h1 | ⟨h1, _⟩
      · exact Or.inr ⟨h1, Relation.ReflTransGen.refl⟩
      · exact Or.inr ⟨h1, Relation.ReflTransGen.refl⟩

theorem acyclicR_add_iff {α : Type} {r r' : α → α → Prop} {o i : α}
    (hiff : ∀ x y, r' x y ↔ r x y ∨ (x = o ∧ y = i))
    (hacyc : ∀ x y, r x y → ¬ Relation.ReflTransGen r y x) :
    (∀ x y, r' x y → ¬ Relation.ReflTransGen r' y x) ↔
      ¬ Relation.ReflTransGen r i o := by
  have hmono : ∀ {x y : α}, Relation.ReflTransGen r x y → Relation.ReflTransGen r' x y :=
    fun h => Relation.ReflTransGen.mono (fun x y hr => (hiff x y).mpr (Or.inl hr)) h
  constructor
  · intro hA hio
    exact hA o i ((hiff o i).mpr (Or.inr ⟨rfl, rfl⟩)) (hmono hio)
  · intro hio x y hstep hreach
    rcases (hiff _ _).mp hstep with hr | ⟨rfl, rfl⟩
    · rcases reach_addEdge_decomp hiff hreach with h | ⟨h1, h2⟩
      · exact hacyc x y hr h
      · refine hio (h2.trans ?_)
        exact (Relation.ReflTransGen.single hr).trans h1
    · rcases reach_addEdge_decomp hiff hreach with h | ⟨_, h2⟩
      · exact hio h
      · exact hio h2

/-! ### Claim C1 -/

/-- Claim C1: for every graph state and every attempted connection of an
output socket to an input socket, `is_circular_connection` reports a
cycle exactly when the output socket's owning node is reachable from the
input socket's owning node by following outbound links (so connecting an
output to an input that is upstream of that output, directly or
transitively, including both sockets on the same node, is always
flagged); and on an acyclic graph the connection passes the check if and
only if adding the wire keeps the graph acyclic. -/
theorem is_circular_connection_iff_reachable (s : St) (a b : SockId)
    (sa sb : Socket) (o i : SockId)
    (ha : lookupSock s a = some sa) (hb : lookupSock s b = some sb)
    (hkinds : (sa.kind = SockKind.output ∧ sb.kind = SockKind.input) ∨
      (sa.kind = SockKind.input ∧ sb.kind = SockKind.output))
    (ho : o = if sa.kind = SockKind.output then a else b)
    (hi : i = if sb.kind = SockKind.input then b else a)
    (hconn : ConnClosed s) (hND : SockND s)
    (hain : a.1 ∈ keysOf s) (hbin : b.1 ∈ keysOf s) (hab : a ≠ b) :
    (is_circular_connection s a b = true ↔ ReachD s i.1 o.1) ∧
    (AcyclicD s →
      (is_circular_connection s a b = false ↔ AcyclicD (addWireAdj s a b))) := by
  subst ho
  subst hi
  have hicirc : is_circular_connection s a b =
      reachB s (if sb.kind = SockKind.input then b else a).1
        (if sa.kind = SockKind.output then a else b).1 := by
    unfold is_circular_connection reachB
    rw [ha, hb]
  have hiin : (if sb.kind = SockKind.input then b else a).1 ∈ keysOf s := by
    by_cases hc : sb.kind = SockKind.input
    · rw [if_pos hc]; exact hbin
    · rw [if_neg hc]; exact hain
  have hpart1 : is_circular_connection s a b = true ↔
      ReachD s (if sb.kind = SockKind.input then b else a).1
        (if sa.kind = SockKind.output then a else b).1 := by
    rw [hicirc]
    exact reachB_iff hconn hiin
  refine ⟨hpart1, ?_⟩
  intro hacyc
  have hstep : ∀ x y, StepD (addWireAdj s a b) x y ↔ StepD s x y ∨
      (x = (if sa.kind = SockKind.output then a else b).1 ∧
        y = (if sb.kind = SockKind.input then b else a).1) := by
    rcases hkinds with ⟨h1, h2⟩ | ⟨h1, h2⟩
    · rw [if_pos h1, if_pos h2]
      exact stepD_addWireAdj hND ha hb h1 h2 hab
    · have hno : ¬ sa.kind = SockKind.output := by rw [h1]; intro hc; cases hc
      have hni : ¬ sb.kind = SockKind.input := by rw [h2]; intro hc; cases hc
      rw [if_neg hno, if_neg hni]
      exact stepD_addWireAdj_rev hND ha hb h1 h2 hab
  have hmain := acyclicR_add_iff hstep hacyc
  constructor
  · intro hfalse
    refine (hmain.mpr ?_ : AcyclicD _)
    intro hio
    have : is_circular_connection s a b = true := hpart1.mpr hio
    rw [hfalse] at this
    cases this
  · intro hA
    have := hmain.mp hA
    cases hc : is_circular_connection s a b
    · rfl
    · exact absurd (hpart1.mp hc) this

/-! ### Dirty-state bookkeeping for `mark_dirty` -/

theorem alookup_isSome_iff_mem {K α : Type} [DecidableEq K] (l : List (K × α)) (k : K) :
    (alookup l k).isSome ↔ k ∈ l.map Prod.fst := by
  induction l with
  | nil => simp [alookup]
  | cons p t ih =>
    by_cases hk : k = p.1
    · simp [alookup, hk]
    · simp [alookup, hk, ih]

/-- A node that exists in the graph and is currently clean. -/
def cleanAt (s : St) (n : NodeId) : Prop :=
  n ∈ keysOf s ∧ dirtyAt s n = false

/-- A downstream hop between two existing clean nodes. -/
def StepC (s : St) (x y : NodeId) : Prop :=
  StepD s x y ∧ cleanAt s x ∧ cleanAt s y

/-- Reachability through a chain of existing clean nodes: the exact set
of nodes that one `mark_dirty` call flips, characterised by
`markDirty_char` below. -/
def CleanReach (s : St) (x m : NodeId) : Prop :=
  cleanAt s x ∧ cleanAt s m ∧ Relation.ReflTransGen (StepC s) x m

/-- Forget the dirty flag of a node. -/
def stripDirty (nd : NodeSt) : NodeSt :=
  { nd with is_dirty := false }

/-- Two states that agree on everything except dirty flags. -/
def EqExceptDirty (s t : St) : Prop :=
  s.wires = t.wires ∧ keysOf s = keysOf t ∧
  ∀ n, (lookupNode s n).map stripDirty = (lookupNode t n).map stripDirty

theorem eqED_refl (s : St) : EqExceptDirty s s :=
  ⟨rfl, rfl, fun _ => rfl⟩

theorem eqED_trans {s t u : St} (h1 : EqExceptDirty s t) (h2 : EqExceptDirty t u) :
    EqExceptDirty s u :=
  ⟨h1.1.trans h2.1, h1.2.1.trans h2.2.1, fun n => (h1.2.2 n).trans (h2.2.2 n)⟩

theorem eqED_updDirty (s : St) (n : NodeId) (b : Bool) :
    EqExceptDirty s (updNode s n fun nd => { nd with is_dirty := b }) := by
  refine ⟨rfl, ?_, ?_⟩
  · simp [keysOf, updNode, aupdate_keys]
  · intro m
    by_cases hm : m = n
    · subst hm
      rw [lookupNode_updNode_self]
      cases lookupNode s m <;> simp [stripDirty]
    · rw [lookupNode_updNode_ne _ _ _ _ hm]

theorem eqED_setDirty (s : St) (n : NodeId) : EqExceptDirty s (setDirty s n) :=
  eqED_updDirty s n true

theorem childrenOf_eq_of_eqED {s t : St} (h : EqExceptDirty s t) (x : NodeId) :
    childrenOf s x = childrenOf t x := by
  have hm := h.2.2 x
  unfold childrenOf
  cases hs : lookupNode s x with
  | none =>
    rw [hs] at hm
    cases ht : lookupNode t x with
    | none => rfl
    | some nd => rw [ht] at hm; cases hm
  | some nd =>
    rw [hs] at hm
    cases ht : lookupNode t x with
    | none => rw [ht] at hm; cases hm
    | some nd' =>
      rw [ht] at hm
      have heq : stripDirty nd = stripDirty nd' := Option.some.inj hm
      have hsk : nd.sockets = nd'.sockets := by
        calc nd.sockets = (stripDirty nd).sockets := rfl
          _ = (stripDirty nd').sockets := by rw [heq]
          _ = nd'.sockets := rfl
      show nd.sockets.foldr _ _ = nd'.sockets.foldr _ _
      rw [hsk]

theorem stepD_eq_of_eqED {s t : St} (h : EqExceptDirty s t) (x y : NodeId) :
    StepD s x y ↔ StepD t x y := by
  unfold StepD
  rw [childrenOf_eq_of_eqED h]

theorem dirtyAt_setDirty_self {s : St} {n : NodeId} {nd : NodeSt}
    (h : lookupNode s n = some nd) : dirtyAt (setDirty s n) n = true := by
  unfold setDirty dirtyAt
  rw [lookupNode_updNode_self, h]
  rfl

theorem dirtyAt_setDirty_ne {s : St} {n m : NodeId} (h : m ≠ n) :
    dirtyAt (setDirty s n) m = dirtyAt s m := by
  unfold setDirty dirtyAt
  rw [lookupNode_updNode_ne _ _ _ _ h]

/-- Transfer a clean chain to a state with fewer dirty nodes and the
same structure. -/
theorem cleanReach_antitone {s t : St} (hED : EqExceptDirty s t)
    (hsub : ∀ m, dirtyAt s m = true → dirtyAt t m = true) {c m : NodeId}
    (h : CleanReach t c m) : CleanReach s c m := by
  have hclean : ∀ z, cleanAt t z → cleanAt s z := by
    intro z hz
    refine ⟨hED.2.1 ▸ hz.1, ?_⟩
    cases hd : dirtyAt s z
    · rfl
    · have hcontra := hsub z hd
      rw [hz.2] at hcontra
      cases hcontra
  refine ⟨hclean _ h.1, hclean _ h.2.1, ?_⟩
  refine Relation.ReflTransGen.mono ?_ h.2.2
  rintro x y ⟨hstep, hx, hy⟩
  exact ⟨(stepD_eq_of_eqED hED x y).mpr hstep, hclean _ hx, hclean _ hy⟩

/-- Split a clean chain of the base state against a more-dirty state
`t`: either the chain is still clean in `t`, or it passes through one of
the nodes `t` added to the dirty set. -/
theorem cleanReach_split {s t : St} {D : NodeId → Prop} (hED : EqExceptDirty s t)
    (hD : ∀ m, dirtyAt t m = true ↔ (dirtyAt s m = true ∨ D m)) {c m : NodeId}
    (h : CleanReach s c m) :
    CleanReach t c m ∨ ∃ x, D x ∧ CleanReach s x m := by
  rcases h with ⟨hc, hm, hpath⟩
  have hkeys : keysOf s = keysOf t := hED.2.1
  have hmt : cleanAt t m ∨ D m := by
    cases hd : dirtyAt t m
    · exact Or.inl ⟨hkeys ▸ hm.1, hd⟩
    · rcases (hD m).mp hd with h1 | h1
      · rw [hm.2] at h1; cases h1
      · exact Or.inr h1
  clear hc
  induction hpath using Relation.ReflTransGen.head_induction_on with
  | refl =>
    rcases hmt with h1 | h1
    · exact Or.inl ⟨h1, h1, Relation.ReflTransGen.refl⟩
    · exact Or.inr ⟨m, h1, hm, hm, Relation.ReflTransGen.refl⟩
  | head hstep hrest ih =>
    rename_i a b
    rcases ih with h1 | h1
    · cases hd : dirtyAt t a
      · refine Or.inl ⟨⟨hkeys ▸ hstep.2.1.1, hd⟩, h1.2.1, ?_⟩
        refine Relation.ReflTransGen.head ?_ h1.2.2
        exact ⟨(stepD_eq_of_eqED hED a b).mp hstep.1, ⟨hkeys ▸ hstep.2.1.1, hd⟩, h1.1⟩
      · rcases (hD a).mp hd with h2 | h2
        · rw [hstep.2.1.2] at h2; cases h2
        · exact Or.inr ⟨a, h2, hstep.2.1, hm, Relation.ReflTransGen.head hstep hrest⟩
    · exact Or.inr h1

/-- Chains of clean nodes compose. -/
theorem cleanReach_trans {s : St} {x y z : NodeId} (h1 : CleanReach s x y)
    (h2 : CleanReach s y z) : CleanReach s x z :=
  ⟨h1.1, h2.2.1, h1.2.2.trans h2.2.2⟩

/-! ### Decomposing a clean chain at its start -/

theorem rtg_last_exit {α : Type} {r : α → α → Prop} {n : α} :
    ∀ {a m : α}, Relation.ReflTransGen r a m →
      m = n ∨ Relation.ReflTransGen (fun x y => r x y ∧ y ≠ n) a m ∨
        ∃ c, r n c ∧ c ≠ n ∧ Relation.ReflTransGen (fun x y => r x y ∧ y ≠ n) c m := by
  intro a m h
  induction h with
  | refl => exact Or.inr (Or.inl Relation.ReflTransGen.refl)
  | tail hp hstep ih =>
    rename_i b m'
    by_cases hm : m' = n
    · exact Or.inl hm
    · rcases ih with hb | hpath | ⟨c, h1, h2, h3⟩
      · subst hb
        exact Or.inr (Or.inr ⟨m', hstep, hm, Relation.ReflTransGen.refl⟩)
      · exact Or.inr (Or.inl (Relation.ReflTransGen.tail hpath ⟨hstep, hm⟩))
      · exact Or.inr (Or.inr ⟨c, h1, h2, Relation.ReflTransGen.tail h3 ⟨hstep, hm⟩⟩)

theorem rtg_avoid_strengthen {α : Type} {r : α → α → Prop} {n : α} :
    ∀ {c m : α}, c ≠ n → Relation.ReflTransGen (fun x y => r x y ∧ y ≠ n) c m →
      Relation.ReflTransGen (fun x y => r x y ∧ x ≠ n ∧ y ≠ n) c m := by
  intro c m hc h
  induction h using Relation.ReflTransGen.head_induction_on with
  | refl => exact Relation.ReflTransGen.refl
  | head hstep _ ih =>
    exact Relation.ReflTransGen.head ⟨hstep.1, hc, hstep.2⟩ (ih hstep.2)

theorem cleanAt_setDirty_of_ne {s : St} {n z : NodeId} (hz : z ≠ n)
    (h : cleanAt s z) : cleanAt (setDirty s n) z := by
  refine ⟨(eqED_setDirty s n).2.1 ▸ h.1, ?_⟩
  rw [dirtyAt_setDirty_ne hz]
  exact h.2

theorem cleanAt_of_setDirty {s : St} {n z : NodeId} (h : cleanAt (setDirty s n) z) :
    cleanAt s z := by
  by_cases hz : z = n
  · subst hz
    exfalso
    have hmem : z ∈ keysOf s := (eqED_setDirty s z).2.1 ▸ h.1
    have hsome := (alookup_isSome_iff_mem s.nodes z).mpr hmem
    cases hlk : lookupNode s z with
    | none => rw [show alookup s.nodes z = lookupNode s z from rfl, hlk] at hsome; cases hsome
    | some nd =>
      have := dirtyAt_setDirty_self hlk
      rw [h.2] at this
      cases this
  · refine ⟨(eqED_setDirty s n).2.1 ▸ h.1, ?_⟩
    rw [← dirtyAt_setDirty_ne hz]
    exact h.2

/-- A clean chain out of a clean node `n` either stays at `n` or exits
through a downstream neighbour and continues through nodes that remain
clean after `n` itself is marked. -/
theorem cleanReach_decomp {s : St} {n m : NodeId} (h : CleanReach s n m) :
    m = n ∨ ∃ c, StepD s n c ∧ CleanReach (setDirty s n) c m := by
  rcases h with ⟨hn, hm, hpath⟩
  have hlift : ∀ {c : NodeId}, c ≠ n → m ≠ n → cleanAt s c →
      Relation.ReflTransGen (fun x y => StepC s x y ∧ y ≠ n) c m →
      CleanReach (setDirty s n) c m := by
    intro c hc hmn hcc hp
    have hp2 := rtg_avoid_strengthen hc hp
    refine ⟨cleanAt_setDirty_of_ne hc hcc, cleanAt_setDirty_of_ne hmn hm, ?_⟩
    refine Relation.ReflTransGen.mono ?_ hp2
    rintro x y ⟨hxy, hx, hy⟩
    refine ⟨?_, cleanAt_setDirty_of_ne hx hxy.2.1, cleanAt_setDirty_of_ne hy hxy.2.2⟩
    exact (stepD_eq_of_eqED (eqED_setDirty s n) x y).mp hxy.1
  rcases rtg_last_exit (n := n) hpath with hcase | hcase | ⟨c, h1, h2, h3⟩
  · exact Or.inl hcase
  · by_cases hmn : m = n
    · exact Or.inl hmn
    · rcases Relation.ReflTransGen.cases_head hcase with heq | ⟨c, hstep, hrest⟩
      · exact Or.inl heq.symm
      · refine Or.inr ⟨c, hstep.1.1, ?_⟩
        exact hlift hstep.2 hmn hstep.1.2.2 hrest
  · by_cases hmn : m = n
    · exact Or.inl hmn
    · refine Or.inr ⟨c, h1.1, ?_⟩
      exact hlift h2 hmn h1.2.2 h3

theorem cleanReach_compose {s : St} {n c m : NodeId} (hn : cleanAt s n)
    (hstep : StepD s n c) (h : CleanReach (setDirty s n) c m) : CleanReach s n m := by
  have hc := cleanAt_of_setDirty h.1
  have hm := cleanAt_of_setDirty h.2.1
  refine ⟨hn, hm, ?_⟩
  refine Relation.ReflTransGen.head ⟨hstep, hn, hc⟩ ?_
  refine Relation.ReflTransGen.mono ?_ h.2.2
  rintro x y ⟨hxy, hx, hy⟩
  exact ⟨(stepD_eq_of_eqED (eqED_setDirty s n) x y).mpr hxy,
    cleanAt_of_setDirty hx, cleanAt_of_setDirty hy⟩

/-! ### Characterisation of `mark_dirty` -/

theorem markDirty_fold (f : Nat)
    (Hrec : ∀ s n s', markDirty f s n = some s' →
      EqExceptDirty s s' ∧
        ∀ m, dirtyAt s' m = true ↔ (dirtyAt s m = true ∨ CleanReach s n m)) :
    ∀ (l : List NodeId) (s0 t s' : St) (D : NodeId → Prop),
      EqExceptDirty s0 t →
      (∀ m, dirtyAt t m = true ↔ (dirtyAt s0 m = true ∨ D m)) →
      (∀ x m, D x → CleanReach s0 x m → D m) →
      l.foldlM (fun u c => markDirty f u c) t = some s' →
      EqExceptDirty s0 s' ∧
        ∀ m, dirtyAt s' m = true ↔
          (dirtyAt s0 m = true ∨ D m ∨ ∃ c ∈ l, CleanReach s0 c m) := by
  intro l
  induction l with
  | nil =>
    intro s0 t s' D hED hD habs hfold
    have ht : t = s' := by simpa [List.foldlM] using hfold
    subst ht
    refine ⟨hED, ?_⟩
    intro m
    rw [hD m]
    simp
  | cons c rest ih =>
    intro s0 t s' D hED hD habs hfold
    rw [List.foldlM_cons] at hfold
    cases h1 : markDirty f t c with
    | none =>
      rw [h1] at hfold
      cases hfold
    | some t1 =>
      rw [h1] at hfold
      simp only [Option.bind_eq_bind, Option.some_bind] at hfold
      obtain ⟨hED1, hchar1⟩ := Hrec t c t1 h1
      have hEDs : EqExceptDirty s0 t1 := eqED_trans hED hED1
      have hsub : ∀ z, dirtyAt s0 z = true → dirtyAt t z = true :=
        fun z hz => (hD z).mpr (Or.inl hz)
      have hDt1 : ∀ m, dirtyAt t1 m = true ↔
          (dirtyAt s0 m = true ∨ (D m ∨ CleanReach s0 c m)) := by
        intro m
        rw [hchar1 m, hD m]
        constructor
        · rintro ((h | h) | h)
          · exact Or.inl h
          · exact Or.inr (Or.inl h)
          · exact Or.inr (Or.inr (cleanReach_antitone hED hsub h))
        · rintro (h | h | h)
          · exact Or.inl (Or.inl h)
          · exact Or.inl (Or.inr h)
          · rcases cleanReach_split hED hD h with h2 | ⟨x, hx, h2⟩
            · exact Or.inr h2
            · exact Or.inl (Or.inr (habs x m hx h2))
      have habs' : ∀ x m, (D x ∨ CleanReach s0 c x) → CleanReach s0 x m →
          (D m ∨ CleanReach s0 c m) := by
        rintro x m (hx | hx) hr
        · exact Or.inl (habs x m hx hr)
        · exact Or.inr (cleanReach_trans hx hr)
      obtain ⟨hEDf, hcharf⟩ := ih s0 t1 s' _ hEDs hDt1 habs' hfold
      refine ⟨hEDf, ?_⟩
      intro m
      rw [hcharf m]
      constructor
      · rintro (h | (h | h) | ⟨c', hc', h⟩)
        · exact Or.inl h
        · exact Or.inr (Or.inl h)
        · exact Or.inr (Or.inr ⟨c, List.mem_cons_self _ _, h⟩)
        · exact Or.inr (Or.inr ⟨c', List.mem_cons_of_mem _ hc', h⟩)
      · rintro (h | h | ⟨c', hc', h⟩)
        · exact Or.inl h
        · exact Or.inr (Or.inl (Or.inl h))
        · rcases List.mem_cons.mp hc' with heq | hmem
          · subst heq
            exact Or.inr (Or.inl (Or.inr h))
          · exact Or.inr (Or.inr ⟨c', hmem, h⟩)

/-- What one `mark_dirty` call computes, on any state: the structure is
untouched and the dirty set grows by exactly the nodes reachable from
the argument through chains of existing clean nodes. -/
theorem markDirty_char :
    ∀ (f : Nat) (s : St) (n : NodeId) (s' : St), markDirty f s n = some s' →
      EqExceptDirty s s' ∧
        ∀ m, dirtyAt s' m = true ↔ (dirtyAt s m = true ∨ CleanReach s n m) := by
  intro f
  induction f with
  | zero => intro s n s' h; cases h
  | succ f ih =>
    intro s n s' h
    rw [markDirty] at h
    split at h
    case _ hlk =>
      cases h
      refine ⟨eqED_refl s, ?_⟩
      intro m
      constructor
      · exact fun hm => Or.inl hm
      · rintro (hm | hm)
        · exact hm
        · exfalso
          have hsome := (alookup_isSome_iff_mem s.nodes n).mpr hm.1.1
          rw [show alookup s.nodes n = lookupNode s n from rfl, hlk] at hsome
          cases hsome
    case _ nd hlk =>
      by_cases hd : nd.is_dirty
      · rw [if_pos hd] at h
        cases h
        refine ⟨eqED_refl s, ?_⟩
        intro m
        constructor
        · exact fun hm => Or.inl hm
        · rintro (hm | hm)
          · exact hm
          · exfalso
            have : dirtyAt s n = false := hm.1.2
            unfold dirtyAt at this
            rw [hlk] at this
            simp at this
            rw [this] at hd
            cases hd
      · rw [if_neg hd] at h
        rw [Bool.not_eq_true] at hd
        have hcleann : cleanAt s n := by
          refine ⟨(alookup_isSome_iff_mem s.nodes n).mp (by rw [show alookup s.nodes n = lookupNode s n from rfl, hlk]; rfl), ?_⟩
          unfold dirtyAt
          rw [hlk]
          simpa using hd
        have hDt : ∀ m, dirtyAt (setDirty s n) m = true ↔
            (dirtyAt s m = true ∨ m = n) := by
          intro m
          by_cases hm : m = n
          · subst hm
            simp [dirtyAt_setDirty_self hlk]
          · rw [dirtyAt_setDirty_ne hm]
            simp [hm]
        obtain ⟨hEDf, hcharf⟩ := markDirty_fold f ih (childrenOf (setDirty s n) n)
          (setDirty s n) (setDirty s n) s' (fun _ => False) (eqED_refl _)
          (by intro m; simp) (by intro x m hx; cases hx) h
        refine ⟨eqED_trans (eqED_setDirty s n) hEDf, ?_⟩
        intro m
        rw [hcharf m, hDt m]
        have hch : childrenOf (setDirty s n) n = childrenOf s n :=
          (childrenOf_eq_of_eqED (eqED_setDirty s n) n).symm
        constructor
        · rintro ((hm | hm) | hfalse | ⟨c, hc, hcr⟩)
          · exact Or.inl hm
          · subst hm
            exact Or.inr ⟨hcleann, hcleann, Relation.ReflTransGen.refl⟩
          · cases hfalse
          · rw [hch] at hc
            exact Or.inr (cleanReach_compose hcleann hc hcr)
        · rintro (hm | hm)
          · exact Or.inl (Or.inl hm)
          · rcases cleanReach_decomp hm with heq | ⟨c, hstep, hcr⟩
            · subst heq
              exact Or.inl (Or.inr rfl)
            · refine Or.inr (Or.inr ⟨c, ?_, hcr⟩)
              rw [hch]
              exact hstep

/-! ### Termination of `mark_dirty` -/

/-- Number of clean node entries: the measure `mark_dirty` strictly
decreases whenever it does real work. -/
def cleanCount (s : St) : Nat :=
  (s.nodes.filter fun p => !p.2.is_dirty).length

theorem filter_aupdate_dirty_le (l : List (NodeId × NodeSt)) (n : NodeId) :
    ((aupdate l n fun nd => { nd with is_dirty := true }).filter
      fun p => !p.2.is_dirty).length ≤ (l.filter fun p => !p.2.is_dirty).length := by
  induction l with
  | nil => simp [aupdate]
  | cons p t ih =>
    by_cases hp : p.1 = n
    · by_cases hc : p.2.is_dirty
      · simp only [aupdate, if_pos hp]
        have h1 : (!({ p.2 with is_dirty := true } : NodeSt).is_dirty) = false := rfl
        have h2 : (!p.2.is_dirty) = false := by rw [hc]; rfl
        simp [h1, h2, ih]
      · simp only [aupdate, if_pos hp]
        have h1 : (!({ p.2 with is_dirty := true } : NodeSt).is_dirty) = false := rfl
        have h2 : (!p.2.is_dirty) = true := by
          rw [Bool.not_eq_true] at hc
          rw [hc]
          rfl
        simp [h1, h2]
        omega
    · simp only [aupdate, if_neg hp]
      by_cases hc : p.2.is_dirty
      · have h2 : (!p.2.is_dirty) = false := by rw [hc]; rfl
        simp [h2, ih]
      · have h2 : (!p.2.is_dirty) = true := by
          rw [Bool.not_eq_true] at hc
          rw [hc]
          rfl
        simp [h2, ih]

theorem filter_aupdate_dirty_lt (l : List (NodeId × NodeSt)) (n : NodeId)
    (nd : NodeSt) (hlk : alookup l n = some nd) (hcl : nd.is_dirty = false) :
    ((aupdate l n fun x => { x with is_dirty := true }).filter
      fun p => !p.2.is_dirty).length < (l.filter fun p => !p.2.is_dirty).length := by
  induction l with
  | nil => simp [alookup] at hlk
  | cons p t ih =>
    by_cases hp : n = p.1
    · have hnd : p.2 = nd := by simpa [alookup, if_pos hp] using hlk
      have hc : (!p.2.is_dirty) = true := by rw [hnd, hcl]; rfl
      have h1 : (!({ p.2 with is_dirty := true } : NodeSt).is_dirty) = false := rfl
      simp only [aupdate, if_pos hp.symm]
      have := filter_aupdate_dirty_le t n
      simp [h1, hc]
      omega
    · have hlk' : alookup t n = some nd := by simpa [alookup, if_neg hp] using hlk
      have hne : ¬ p.1 = n := fun he => hp he.symm
      simp only [aupdate, if_neg hne]
      by_cases hc : p.2.is_dirty
      · have h2 : (!p.2.is_dirty) = false := by rw [hc]; rfl
        simpa [h2] using ih hlk'
      · have h2 : (!p.2.is_dirty) = true := by
          rw [Bool.not_eq_true] at hc
          rw [hc]
          rfl
        have := ih hlk'
        simp [h2]
        omega

theorem cleanCount_setDirty_lt {s : St} {n : NodeId} {nd : NodeSt}
    (hlk : lookupNode s n = some nd) (hcl : nd.is_dirty = false) :
    cleanCount (setDirty s n) < cleanCount s :=
  filter_aupdate_dirty_lt s.nodes n nd hlk hcl

/-- On any graph state, `mark_dirty` never exhausts the fuel budget
`cleanCount + 2`, and never increases the number of clean nodes. -/
theorem markDirty_total :
    ∀ (f : Nat) (s : St) (n : NodeId), cleanCount s + 2 ≤ f →
      ∃ s', markDirty f s n = some s' ∧ cleanCount s' ≤ cleanCount s := by
  intro f
  induction f with
  | zero => intro s n hf; omega
  | succ f ih =>
    intro s n hf
    rw [markDirty]
    split
    case _ => exact ⟨s, rfl, Nat.le_refl _⟩
    case _ nd hlk =>
      split
      case _ hd => exact ⟨s, rfl, Nat.le_refl _⟩
      case _ hd =>
        rw [Bool.not_eq_true] at hd
        have hlt : cleanCount (setDirty s n) < cleanCount s :=
          cleanCount_setDirty_lt hlk hd
        have haux : ∀ (l : List NodeId) (t : St), cleanCount t + 2 ≤ f →
            ∃ s', l.foldlM (fun u c => markDirty f u c) t = some s' ∧
              cleanCount s' ≤ cleanCount t := by
          intro l
          induction l with
          | nil => intro t ht; exact ⟨t, by simp [List.foldlM], Nat.le_refl _⟩
          | cons c rest ihl =>
            intro t ht
            rcases ih t c ht with ⟨t1, h1, hle1⟩
            rcases ihl t1 (by omega) with ⟨s', h2, hle2⟩
            refine ⟨s', ?_, Nat.le_trans hle2 hle1⟩
            rw [List.foldlM_cons, h1]
            simpa using h2
        rcases haux (childrenOf (setDirty s n) n) (setDirty s n) (by omega)
          with ⟨s', hs', hle⟩
        exact ⟨s', hs', by omega⟩

/-! ### Claim C2 -/

theorem dirtyAt_eq_true_iff {s : St} {b : NodeId} :
    dirtyAt s b = true ↔ ∃ nd, lookupNode s b = some nd ∧ nd.is_dirty = true := by
  unfold dirtyAt
  cases h : lookupNode s b with
  | none => simp
  | some nd => simp

theorem dirtyClosed_propagate {s : St} (hclosed : DirtyClosed s) {x m : NodeId}
    (h : ReachD s x m) (hx : dirtyAt s x = true) : dirtyAt s m = true := by
  induction h with
  | refl => exact hx
  | tail hp hstep ih =>
    rcases dirtyAt_eq_true_iff.mp ih with ⟨nd, hlk, hdirty⟩
    exact hclosed (_, nd) (alookup_mem hlk) hdirty _ hstep

theorem cleanReach_of_reach {s : St} (hclosed : DirtyClosed s)
    (hconn : ConnClosed s) {n m : NodeId} (hmem : n ∈ keysOf s)
    (h : ReachD s n m) (hm : dirtyAt s m = false) : CleanReach s n m := by
  induction h with
  | refl => exact ⟨⟨hmem, hm⟩, ⟨hmem, hm⟩, Relation.ReflTransGen.refl⟩
  | tail hp hstep ih =>
    rename_i b m'
    cases hb : dirtyAt s b with
    | true =>
      exfalso
      rcases dirtyAt_eq_true_iff.mp hb with ⟨nd, hlk, hdirty⟩
      have := hclosed (_, nd) (alookup_mem hlk) hdirty _ hstep
      rw [hm] at this
      cases this
    | false =>
      have hcrb := ih hb
      have hbmem : b ∈ keysOf s := hcrb.2.1.1
      have hbsome := (alookup_isSome_iff_mem s.nodes b).mpr hbmem
      cases hlkb : lookupNode s b with
      | none =>
        rw [show alookup s.nodes b = lookupNode s b from rfl, hlkb] at hbsome
        cases hbsome
      | some ndb =>
        have hmmem : m' ∈ keysOf s := hconn (b, ndb) (alookup_mem hlkb) m' hstep
        refine ⟨hcrb.1, ⟨hmmem, hm⟩, ?_⟩
        exact Relation.ReflTransGen.tail hcrb.2.2 ⟨hstep, hcrb.2.1, ⟨hmmem, hm⟩⟩

theorem cleanReach_to_reach {s : St} {n m : NodeId} (h : CleanReach s n m) :
    ReachD s n m :=
  Relation.ReflTransGen.mono (fun _ _ hs => hs.1) h.2.2

/-- Claim C2: after `mark_dirty(N)` every node reachable from `N` via
outbound links is dirty, the dirty flag of every node not reachable from
`N` is unchanged, and the dirty set remains downstream-closed — so it is
always a downstream-closed superset of any directly-edited node. The
`DirtyClosed` hypothesis is the invariant the spec guarantees for every
editor-produced state (spec section 4.2). -/
theorem markDirty_propagation (s : St) (n : NodeId) (s' : St) (f : Nat)
    (hkeys : KeysND s) (hconn : ConnClosed s) (hclosed : DirtyClosed s)
    (hmem : n ∈ keysOf s) (hrun : markDirty f s n = some s') :
    (∀ m, ReachD s n m → dirtyAt s' m = true) ∧
    (∀ m, ¬ ReachD s n m → dirtyAt s' m = dirtyAt s m) ∧
    DirtyClosed s' := by
  obtain ⟨hED, hchar⟩ := markDirty_char f s n s' hrun
  have hpart1 : ∀ m, ReachD s n m → dirtyAt s' m = true := by
    intro m hreach
    cases hm : dirtyAt s m with
    | true => exact (hchar m).mpr (Or.inl hm)
    | false =>
      exact (hchar m).mpr (Or.inr (cleanReach_of_reach hclosed hconn hmem hreach hm))
  refine ⟨hpart1, ?_, ?_⟩
  · intro m hnreach
    cases hm : dirtyAt s m with
    | true => exact (hchar m).mpr (Or.inl hm)
    | false =>
      cases hm' : dirtyAt s' m with
      | false => rfl
      | true =>
        rcases (hchar m).mp hm' with h1 | h1
        · rw [hm] at h1; cases h1
        · exact absurd (cleanReach_to_reach h1) hnreach
  · intro p hp hdirty c hc
    have hkeys' : (s'.nodes.map Prod.fst).Nodup := by
      have := hED.2.1
      unfold keysOf at this
      rw [← this]
      exact hkeys
    have hlkp : lookupNode s' p.1 = some p.2 := alookup_of_mem_nodup hkeys' hp
    have hdp : dirtyAt s' p.1 = true := dirtyAt_eq_true_iff.mpr ⟨p.2, hlkp, hdirty⟩
    have hcs : c ∈ childrenOf s p.1 := by
      rw [childrenOf_eq_of_eqED hED]
      exact hc
    rcases (hchar p.1).mp hdp with h1 | h1
    · rcases dirtyAt_eq_true_iff.mp h1 with ⟨nd, hlk, hd⟩
      have := hclosed (p.1, nd) (alookup_mem hlk) hd c hcs
      exact (hchar c).mpr (Or.inl this)
    · have hreach : ReachD s n c :=
        Relation.ReflTransGen.tail (cleanReach_to_reach h1) hcs
      exact hpart1 c hreach

/-! ### Socket lookup through the wire transactions -/

theorem lookupSock_updSock_self (s : St) (c : SockId) (f : Socket → Socket) :
    lookupSock (updSock s c f) c = (lookupSock s c).map f := by
  unfold lookupSock updSock
  rw [lookupNode_updNode_self]
  cases lookupNode s c.1 with
  | none => rfl
  | some nd =>
    show (alookup (aupdate nd.sockets c.2 f) c.2) = _
    rw [alookup_aupdate_self]
    rfl

theorem lookupSock_updSock (s : St) (c sid : SockId) (f : Socket → Socket) :
    lookupSock (updSock s c f) sid =
      if sid = c then (lookupSock s c).map f else lookupSock s sid := by
  by_cases h : sid = c
  · subst h
    rw [if_pos rfl, lookupSock_updSock_self]
  · rw [if_neg h, lookupSock_updSock_ne _ h]

theorem lookupSock_set_wires (ns : List (NodeId × NodeSt))
    (w w' : List (SockId × SockId)) (sid : SockId) :
    lookupSock ⟨ns, w⟩ sid = lookupSock ⟨ns, w'⟩ sid := rfl

theorem lookupSock_eq_of_eqED {s t : St} (h : EqExceptDirty s t) (sid : SockId) :
    lookupSock s sid = lookupSock t sid := by
  have hm := h.2.2 sid.1
  unfold lookupSock
  cases hs : lookupNode s sid.1 with
  | none =>
    rw [hs] at hm
    cases ht : lookupNode t sid.1 with
    | none => rfl
    | some nd => rw [ht] at hm; cases hm
  | some nd =>
    rw [hs] at hm
    cases ht : lookupNode t sid.1 with
    | none => rw [ht] at hm; cases hm
    | some nd' =>
      rw [ht] at hm
      have heq : stripDirty nd = stripDirty nd' := Option.some.inj hm
      have hsk : nd.sockets = nd'.sockets := by
        calc nd.sockets = (stripDirty nd).sockets := rfl
          _ = (stripDirty nd').sockets := by rw [heq]
          _ = nd'.sockets := rfl
      show alookup nd.sockets sid.2 = alookup nd'.sockets sid.2
      rw [hsk]

theorem connsOf_eq_of_lookup {s : St} {sid : SockId} {sk : Socket}
    (h : lookupSock s sid = some sk) : connsOf s sid = sk.connections := by
  unfold connsOf
  rw [h]
  rfl

/-- Erase a peer socket from a socket's `connections` list (Python
`list.remove` guarded by `in`). -/
def eraseConn (v : SockId) (sk : Socket) : Socket :=
  { sk with connections := sk.connections.erase v }

theorem delWire_as_upd (s : St) (w : SockId × SockId) :
    delWire s w =
      updSock (updSock { s with wires := s.wires.erase w } w.1 (eraseConn w.2))
        w.2 (eraseConn w.1) := rfl

theorem lookupSock_delWire (s : St) (w : SockId × SockId) (hne : w.1 ≠ w.2)
    (sid : SockId) :
    lookupSock (delWire s w) sid =
      if sid = w.2 then (lookupSock s w.2).map (eraseConn w.1)
      else if sid = w.1 then (lookupSock s w.1).map (eraseConn w.2)
      else lookupSock s sid := by
  rw [delWire_as_upd, lookupSock_updSock]
  by_cases h2 : sid = w.2
  · rw [if_pos h2, if_pos h2]
    rw [lookupSock_updSock, if_neg (by intro hc; exact hne hc.symm)]
    cases s
    rw [lookupSock_set_wires]
  · rw [if_neg h2, if_neg h2, lookupSock_updSock]
    by_cases h1 : sid = w.1
    · rw [if_pos h1, if_pos h1]
      cases s
      rw [lookupSock_set_wires]
    · rw [if_neg h1, if_neg h1]
      cases s
      rw [lookupSock_set_wires]

theorem addWireAdj_as_upd (s : St) (a b : SockId) :
    addWireAdj s a b =
      { updSock (updSock s a (appendConn b)) b (appendConn a) with
        wires := (updSock (updSock s a (appendConn b)) b (appendConn a)).wires ++ [(a, b)] } := rfl

theorem wires_updSock (s : St) (c : SockId) (f : Socket → Socket) :
    (updSock s c f).wires = s.wires := rfl

theorem lookupSock_addWireAdj (s : St) (a b : SockId) (hab : a ≠ b) (sid : SockId) :
    lookupSock (addWireAdj s a b) sid =
      if sid = b then (lookupSock s b).map (appendConn a)
      else if sid = a then (lookupSock s a).map (appendConn b)
      else lookupSock s sid := by
  rw [addWireAdj_as_upd]
  have hout : lookupSock
      { updSock (updSock s a (appendConn b)) b (appendConn a) with
        wires := (updSock (updSock s a (appendConn b)) b (appendConn a)).wires ++ [(a, b)] } sid =
      lookupSock (updSock (updSock s a (appendConn b)) b (appendConn a)) sid := by
    cases hu : updSock (updSock s a (appendConn b)) b (appendConn a)
    rw [lookupSock_set_wires]
  rw [hout, lookupSock_updSock]
  by_cases h2 : sid = b
  · rw [if_pos h2, if_pos h2]
    rw [lookupSock_updSock, if_neg (by intro hc; exact hab hc.symm)]
  · rw [if_neg h2, if_neg h2, lookupSock_updSock]

theorem wires_addWireAdj (s : St) (a b : SockId) :
    (addWireAdj s a b).wires = s.wires ++ [(a, b)] := rfl

theorem wires_delWire (s : St) (w : SockId × SockId) :
    (delWire s w).wires = s.wires.erase w := rfl

theorem kind_appendConn (v : SockId) (sk : Socket) : (appendConn v sk).kind = sk.kind := rfl

theorem kind_eraseConn (v : SockId) (sk : Socket) : (eraseConn v sk).kind = sk.kind := rfl

/-! ### Claim C8 -/

/-- Claim C8: a connection attempt rejected for a structural reason —
same-kind sockets or a detected cycle — leaves the graph completely
unmodified: the state, and in particular the wire list, every socket's
adjacency list and every dirty flag, are exactly those of the input
state. -/
theorem connectTx_rejected_no_mutation (s : St) (a b : SockId) (sa sb : Socket)
    (ha : lookupSock s a = some sa) (hb : lookupSock s b = some sb)
    (hrej : sa.kind = sb.kind ∨
      (sa.kind ≠ sb.kind ∧ is_circular_connection s a b = true)) :
    connectTx s a b = s ∧
    (connectTx s a b).wires = s.wires ∧
    (∀ sid, connsOf (connectTx s a b) sid = connsOf s sid) ∧
    (∀ m, dirtyAt (connectTx s a b) m = dirtyAt s m) ∧
    (connectTx s a b).wires.length = s.wires.length := by
  have heq : connectTx s a b = s := by
    unfold connectTx
    rw [ha, hb]
    show (if a ≠ b ∧ sa.kind ≠ sb.kind ∧ is_circular_connection s a b = false
      then _ else s) = s
    rw [if_neg]
    rintro ⟨h1, h2, h3⟩
    rcases hrej with hk | ⟨hk, hc⟩
    · exact h2 hk
    · rw [hc] at h3
      cases h3
  refine ⟨heq, ?_, ?_, ?_, ?_⟩ <;> rw [heq] <;> intros <;> rfl

/-! ### Claim C4 -/

theorem dirtyAt_updSock (s : St) (c : SockId) (f : Socket → Socket) (m : NodeId) :
    dirtyAt (updSock s c f) m = dirtyAt s m := by
  unfold dirtyAt updSock
  by_cases h : m = c.1
  · subst h
    rw [lookupNode_updNode_self]
    cases hl : lookupNode s c.1 <;> rfl
  · rw [lookupNode_updNode_ne _ _ _ _ h]

theorem dirtyAt_delWire (s : St) (w : SockId × SockId) (m : NodeId) :
    dirtyAt (delWire s w) m = dirtyAt s m := by
  rw [delWire_as_upd, dirtyAt_updSock, dirtyAt_updSock]
  rfl

/-- Amended claim C4: disconnecting an existing link removes it from
both endpoint sockets' adjacency lists (no dangling reference remains on
either side) and removes the wire; the operation is total and never
fails. However — unlike what the claim states — no node is marked
dirty: every dirty flag is unchanged (see
`disconnect_does_not_mark_dirty` for a concrete counterexample to the
claim's dirty-marking part). -/
theorem disconnect_removes_both_sides (s : St) (w : SockId × SockId)
    (sk1 sk2 : Socket)
    (h1 : lookupSock s w.1 = some sk1) (h2 : lookupSock s w.2 = some sk2)
    (hne : w.1 ≠ w.2)
    (hc1 : sk1.connections.count w.2 ≤ 1) (hc2 : sk2.connections.count w.1 ≤ 1)
    (hw : w ∈ s.wires) :
    (w.2 ∉ connsOf (disconnectTx s w) w.1) ∧
    (w.1 ∉ connsOf (disconnectTx s w) w.2) ∧
    (disconnectTx s w).wires.length + 1 = s.wires.length ∧
    (∀ m, dirtyAt (disconnectTx s w) m = dirtyAt s m) := by
  unfold disconnectTx
  have hl1 : lookupSock (delWire s w) w.1 = some (eraseConn w.2 sk1) := by
    rw [lookupSock_delWire s w hne, if_neg (fun hc => hne hc), if_pos rfl, h1]
    rfl
  have hl2 : lookupSock (delWire s w) w.2 = some (eraseConn w.1 sk2) := by
    rw [lookupSock_delWire s w hne, if_pos rfl, h2]
    rfl
  refine ⟨?_, ?_, ?_, ?_⟩
  · rw [connsOf_eq_of_lookup hl1]
    show w.2 ∉ sk1.connections.erase w.2
    intro hmem
    have := List.count_erase_self w.2 sk1.connections
    have hpos := List.count_pos_iff.mpr hmem
    omega
  · rw [connsOf_eq_of_lookup hl2]
    show w.1 ∉ sk2.connections.erase w.1
    intro hmem
    have := List.count_erase_self w.1 sk2.connections
    have hpos := List.count_pos_iff.mpr hmem
    omega
  · rw [wires_delWire]
    have := List.length_erase_of_mem hw
    have hpos : 0 < s.wires.length := List.length_pos_of_mem hw
    omega
  · intro m
    exact dirtyAt_delWire s w m

/-! ### Claim C3 -/

theorem length_erase_le' {l : List SockId} {x : SockId} :
    (l.erase x).length ≤ l.length :=
  (List.erase_sublist x l).length_le

/-- Claim C3: completing a connection onto an input socket that already
holds an incoming link removes the prior link as part of the
transaction, and afterwards the input socket's adjacency list is exactly
the single new partner; the total wire count is unchanged (replace, not
accumulate), and the fan-in-at-most-one invariant holds for every input
socket of the resulting state. -/
theorem connect_replaces_prior_link (s : St) (a b : SockId) (sa sb : Socket)
    (p inp other : SockId) (w : SockId × SockId)
    (ha : lookupSock s a = some sa) (hb : lookupSock s b = some sb)
    (hab : a ≠ b) (hkind : sa.kind ≠ sb.kind)
    (hcirc : is_circular_connection s a b = false)
    (hinp : inp = if sb.kind = SockKind.input then b else a)
    (hoth : other = if sb.kind = SockKind.input then a else b)
    (hprior : connsOf s inp = [p]) (hip : inp ≠ p)
    (hfind : findOldWire s inp p = some w)
    (hInv : ∀ sid sk, lookupSock s sid = some sk → sk.kind = SockKind.input →
      sk.connections.length ≤ 1) :
    connsOf (connectTx s a b) inp = [other] ∧
    (connectTx s a b).wires.length = s.wires.length ∧
    (∀ sid sk, lookupSock (connectTx s a b) sid = some sk →
      sk.kind = SockKind.input → sk.connections.length ≤ 1) := by
  have hwpred := List.find?_some hfind
  have hwor : (w.1 = inp ∧ w.2 = p) ∨ (w.1 = p ∧ w.2 = inp) := of_decide_eq_true hwpred
  have hwmem : w ∈ s.wires := List.mem_of_find?_eq_some hfind
  have hwne : w.1 ≠ w.2 := by
    rcases hwor with ⟨e1, e2⟩ | ⟨e1, e2⟩
    · rw [e1, e2]; exact hip
    · rw [e1, e2]; exact fun hc => hip hc.symm
  have hcond : a ≠ b ∧ sa.kind ≠ sb.kind ∧ is_circular_connection s a b = false :=
    ⟨hab, hkind, hcirc⟩
  have hstep1 : connectTx s a b =
      (markDirty ((addWireAdj (delWire s w) a b).nodes.length + 2)
        (addWireAdj (delWire s w) a b) inp.1).getD (addWireAdj (delWire s w) a b) := by
    unfold connectTx
    rw [ha, hb]
    show (if a ≠ b ∧ sa.kind ≠ sb.kind ∧ is_circular_connection s a b = false
        then _ else s) = _
    rw [if_pos hcond]
    simp only [← hinp, hprior, hfind]
  have hclean2 : cleanCount (addWireAdj (delWire s w) a b) ≤
      (addWireAdj (delWire s w) a b).nodes.length := List.length_filter_le _ _
  obtain ⟨s3, hrun, -⟩ := markDirty_total
    ((addWireAdj (delWire s w) a b).nodes.length + 2) (addWireAdj (delWire s w) a b)
    inp.1 (by omega)
  have hfinal : connectTx s a b = s3 := by rw [hstep1, hrun]; rfl
  obtain ⟨hED, -⟩ := markDirty_char _ _ _ _ hrun
  have hlk3 : ∀ sid, lookupSock s3 sid = lookupSock (addWireAdj (delWire s w) a b) sid :=
    fun sid => (lookupSock_eq_of_eqED hED sid).symm
  have hw3 : s3.wires = (addWireAdj (delWire s w) a b).wires := hED.1.symm
  -- the record of the input socket, before and after the transaction
  have hlkinp : lookupSock s inp = some (if sb.kind = SockKind.input then sb else sa) := by
    by_cases hk : sb.kind = SockKind.input
    · rw [hinp, if_pos hk, if_pos hk]; exact hb
    · rw [hinp, if_neg hk, if_neg hk]; exact ha
  have hconnsinp : (if sb.kind = SockKind.input then sb else sa).connections = [p] := by
    rw [← connsOf_eq_of_lookup hlkinp]
    exact hprior
  have hlk1inp : lookupSock (delWire s w) inp =
      some (eraseConn p (if sb.kind = SockKind.input then sb else sa)) := by
    rw [lookupSock_delWire s w hwne]
    rcases hwor with ⟨e1, e2⟩ | ⟨e1, e2⟩
    · rw [if_neg (by rw [e2]; exact hip), if_pos (by rw [e1]), e1, e2, hlkinp]
      rfl
    · rw [if_pos (by rw [e2]), e1, e2, hlkinp]
      rfl
  have hconnserase :
      (eraseConn p (if sb.kind = SockKind.input then sb else sa)).connections = [] := by
    show (if sb.kind = SockKind.input then sb else sa).connections.erase p = []
    rw [hconnsinp]
    simp [List.erase_cons]
  have hlk2inp : lookupSock (addWireAdj (delWire s w) a b) inp =
      some (appendConn other
        (eraseConn p (if sb.kind = SockKind.input then sb else sa))) := by
    by_cases hk : sb.kind = SockKind.input
    · have hib : inp = b := by rw [hinp, if_pos hk]
      have ho : other = a := by rw [hoth, if_pos hk]
      rw [lookupSock_addWireAdj _ _ _ hab, if_pos hib, ← hib, hlk1inp, ho]
      rfl
    · have hia : inp = a := by rw [hinp, if_neg hk]
      have ho : other = b := by rw [hoth, if_neg hk]
      have hnib : ¬ inp = b := by rw [hia]; exact hab
      rw [lookupSock_addWireAdj _ _ _ hab, if_neg hnib, if_pos hia, ← hia, hlk1inp, ho]
      rfl
  have hconnsfinal : (appendConn other
      (eraseConn p (if sb.kind = SockKind.input then sb else sa))).connections = [other] := by
    show (eraseConn p (if sb.kind = SockKind.input then sb else sa)).connections ++ [other]
      = [other]
    rw [hconnserase]
    rfl
  -- a socket record of the intermediate state always comes from an
  -- original record of the same kind, with no-longer adjacency unless
  -- it is an endpoint of the new wire
  have hK1 : ∀ sid sk1, lookupSock (delWire s w) sid = some sk1 →
      ∃ sk0, lookupSock s sid = some sk0 ∧ sk1.kind = sk0.kind ∧
        sk1.connections.length ≤ sk0.connections.length := by
    intro sid sk1 hlk
    rw [lookupSock_delWire s w hwne] at hlk
    by_cases h2 : sid = w.2
    · rw [if_pos h2] at hlk
      cases hl0 : lookupSock s w.2 with
      | none => rw [hl0] at hlk; cases hlk
      | some sk0 =>
        rw [hl0] at hlk
        cases Option.some.inj hlk
        exact ⟨sk0, h2 ▸ hl0, rfl, length_erase_le'⟩
    · rw [if_neg h2] at hlk
      by_cases h1 : sid = w.1
      · rw [if_pos h1] at hlk
        cases hl0 : lookupSock s w.1 with
        | none => rw [hl0] at hlk; cases hlk
        | some sk0 =>
          rw [hl0] at hlk
          cases Option.some.inj hlk
          exact ⟨sk0, h1 ▸ hl0, rfl, length_erase_le'⟩
      · rw [if_neg h1] at hlk
        exact ⟨sk1, hlk, rfl, Nat.le_refl _⟩
  have hK : ∀ sid sk, lookupSock (addWireAdj (delWire s w) a b) sid = some sk →
      ∃ sk0, lookupSock s sid = some sk0 ∧ sk.kind = sk0.kind ∧
        (sid ≠ a → sid ≠ b → sk.connections.length ≤ sk0.connections.length) := by
    intro sid sk hlk
    rw [lookupSock_addWireAdj _ _ _ hab] at hlk
    by_cases h2 : sid = b
    · rw [if_pos h2] at hlk
      cases hl1 : lookupSock (delWire s w) b with
      | none => rw [hl1] at hlk; cases hlk
      | some sk1 =>
        rw [hl1] at hlk
        cases Option.some.inj hlk
        rcases hK1 b sk1 hl1 with ⟨sk0, hsk0, hkind0, _⟩
        exact ⟨sk0, h2 ▸ hsk0, hkind0, fun _ hnb => absurd h2 hnb⟩
    · rw [if_neg h2] at hlk
      by_cases h1 : sid = a
      · rw [if_pos h1] at hlk
        cases hl1 : lookupSock (delWire s w) a with
        | none => rw [hl1] at hlk; cases hlk
        | some sk1 =>
          rw [hl1] at hlk
          cases Option.some.inj hlk
          rcases hK1 a sk1 hl1 with ⟨sk0, hsk0, hkind0, _⟩
          exact ⟨sk0, h1 ▸ hsk0, hkind0, fun hna _ => absurd h1 hna⟩
      · rw [if_neg h1] at hlk
        rcases hK1 sid sk hlk with ⟨sk0, hsk0, hkind0, hlen⟩
        exact ⟨sk0, hsk0, hkind0, fun _ _ => hlen⟩
  refine ⟨?_, ?_, ?_⟩
  · rw [hfinal, connsOf_eq_of_lookup (by rw [hlk3]; exact hlk2inp)]
    exact hconnsfinal
  · rw [hfinal, hw3, wires_addWireAdj, wires_delWire]
    have h1 := List.length_erase_of_mem hwmem
    have h2 : 0 < s.wires.length := List.length_pos_of_mem hwmem
    simp only [List.length_append, List.length_cons, List.length_nil]
    omega
  · intro sid sk hlk hkin
    rw [hfinal, hlk3] at hlk
    by_cases hsid : sid = inp
    · subst hsid
      rw [hlk2inp] at hlk
      cases Option.some.inj hlk
      rw [hconnsfinal]
      exact Nat.le_refl 1
    · rcases hK sid sk hlk with ⟨sk0, hsk0, hkind0, hlen⟩
      by_cases hsoth : sid = other
      · -- the other endpoint of the new wire is the output socket
        exfalso
        have hlkoth : lookupSock s other =
            some (if sb.kind = SockKind.input then sa else sb) := by
          by_cases hk : sb.kind = SockKind.input
          · rw [hoth, if_pos hk, if_pos hk]; exact ha
          · rw [hoth, if_neg hk, if_neg hk]; exact hb
        have hko : (if sb.kind = SockKind.input then sa else sb).kind =
            SockKind.output := by
          by_cases hk : sb.kind = SockKind.input
          · rw [if_pos hk]
            cases hsa : sa.kind
            · exact absurd (by rw [hsa, hk]) hkind
            · rfl
          · rw [if_neg hk]
            cases hsb : sb.kind
            · exact absurd hsb hk
            · rfl
        rw [hsoth, hlkoth] at hsk0
        cases Option.some.inj hsk0
        rw [hkind0, hko] at hkin
        cases hkin
      · have hna : sid ≠ a := by
          intro hc
          by_cases hk : sb.kind = SockKind.input
          · exact hsoth (by rw [hc, hoth, if_pos hk])
          · exact hsid (by rw [hc, hinp, if_neg hk])
        have hnb : sid ≠ b := by
          intro hc
          by_cases hk : sb.kind = SockKind.input
          · exact hsid (by rw [hc, hinp, if_pos hk])
          · exact hsoth (by rw [hc, hoth, if_neg hk])
        have := hInv sid sk0 hsk0 (hkind0 ▸ hkin)
        have := hlen hna hnb
        omega

/-! ### Structure preservation by `cook` -/

/-- The structural part of a node: everything except the dirty flag and
the output cache, which are all `cook` ever writes. -/
def skelOf (nd : NodeSt) : List Row × List (Nat × Option Value) × List (Nat × Socket) :=
  (nd.layout, nd.static_fields, nd.sockets)

/-- Two states with identical wires, node ids and node structure. -/
def SkelEq (s t : St) : Prop :=
  s.wires = t.wires ∧ keysOf s = keysOf t ∧
  ∀ n, (lookupNode s n).map skelOf = (lookupNode t n).map skelOf

theorem skelEq_refl (s : St) : SkelEq s s := ⟨rfl, rfl, fun _ => rfl⟩

theorem skelEq_trans {s t u : St} (h1 : SkelEq s t) (h2 : SkelEq t u) : SkelEq s u :=
  ⟨h1.1.trans h2.1, h1.2.1.trans h2.2.1, fun n => (h1.2.2 n).trans (h2.2.2 n)⟩

theorem skelEq_updNode (s : St) (n : NodeId) (f : NodeSt → NodeSt)
    (hf : ∀ nd, skelOf (f nd) = skelOf nd) : SkelEq s (updNode s n f) := by
  refine ⟨rfl, ?_, ?_⟩
  · simp [keysOf, updNode, aupdate_keys]
  · intro m
    by_cases hm : m = n
    · subst hm
      rw [lookupNode_updNode_self]
      cases lookupNode s m with
      | none => rfl
      | some nd => simp [hf nd]
    · rw [lookupNode_updNode_ne _ _ _ _ hm]

theorem lookup_parts_of_skelEq {s t : St} (h : SkelEq s t) (n : NodeId) :
    (lookupNode s n = none ∧ lookupNode t n = none) ∨
    ∃ nd nd', lookupNode s n = some nd ∧ lookupNode t n = some nd' ∧
      nd.layout = nd'.layout ∧ nd.static_fields = nd'.static_fields ∧
      nd.sockets = nd'.sockets := by
  have hm := h.2.2 n
  cases hs : lookupNode s n with
  | none =>
    rw [hs] at hm
    cases ht : lookupNode t n with
    | none => exact Or.inl ⟨rfl, rfl⟩
    | some nd => rw [ht] at hm; cases hm
  | some nd =>
    rw [hs] at hm
    cases ht : lookupNode t n with
    | none => rw [ht] at hm; cases hm
    | some nd' =>
      rw [ht] at hm
      have heq : skelOf nd = skelOf nd' := Option.some.inj hm
      refine Or.inr ⟨nd, nd', rfl, rfl, ?_, ?_, ?_⟩
      · exact congrArg Prod.fst heq
      · exact congrArg (fun x => x.2.1) heq
      · exact congrArg (fun x => x.2.2) heq

theorem parentsOf_eq_of_skelEq {s t : St} (h : SkelEq s t) (n : NodeId) :
    parentsOf s n = parentsOf t n := by
  unfold parentsOf
  rcases lookup_parts_of_skelEq h n with ⟨h1, h2⟩ | ⟨nd, nd', h1, h2, hl, _, hsk⟩
  · rw [h1, h2]
  · rw [h1, h2]
    show nd.layout.enum.foldr (fun p acc => rowParent nd.sockets p ++ acc) [] =
      nd'.layout.enum.foldr (fun p acc => rowParent nd'.sockets p ++ acc) []
    rw [hl, hsk]

theorem stepU_eq_of_skelEq {s t : St} (h : SkelEq s t) (x y : NodeId) :
    StepU s x y ↔ StepU t x y := by
  unfold StepU
  rw [parentsOf_eq_of_skelEq h]

theorem reachU_eq_of_skelEq {s t : St} (h : SkelEq s t) (x y : NodeId) :
    ReachU s x y ↔ ReachU t x y := by
  constructor
  · exact fun hr => Relation.ReflTransGen.mono (fun a b => (stepU_eq_of_skelEq h a b).mp) hr
  · exact fun hr => Relation.ReflTransGen.mono (fun a b => (stepU_eq_of_skelEq h a b).mpr) hr

theorem lookupSock_eq_of_skelEq {s t : St} (h : SkelEq s t) (sid : SockId) :
    lookupSock s sid = lookupSock t sid := by
  unfold lookupSock
  rcases lookup_parts_of_skelEq h sid.1 with ⟨h1, h2⟩ | ⟨nd, nd', h1, h2, _, _, hsk⟩
  · rw [h1, h2]
  · rw [h1, h2]
    show alookup nd.sockets sid.2 = alookup nd'.sockets sid.2
    rw [hsk]

theorem staticVal_eq_of_skelEq {s t : St} (h : SkelEq s t) (n : NodeId) (i : Nat) :
    staticVal s n i = staticVal t n i := by
  unfold staticVal
  rcases lookup_parts_of_skelEq h n with ⟨h1, h2⟩ | ⟨nd, nd', h1, h2, _, hsf, _⟩
  · rw [h1, h2]
  · rw [h1, h2]
    show (alookup nd.static_fields i).join = (alookup nd'.static_fields i).join
    rw [hsf]

/-! ### Membership in `parentsOf` -/

theorem mem_rowParent (sks : List (Nat × Socket)) (p : Nat × Row) (u : NodeId) :
    u ∈ rowParent sks p ↔
      (p.2.field_type = FieldType.input ∨ p.2.field_type = FieldType.dynamic) ∧
      ∃ sock, alookup sks p.1 = some sock ∧
        ∃ v l', sock.connections = v :: l' ∧ v.1 = u := by
  unfold rowParent
  by_cases hq : p.2.field_type = FieldType.input ∨ p.2.field_type = FieldType.dynamic
  · rw [if_pos hq]
    cases hsk : alookup sks p.1 with
    | none =>
      show (u ∈ ([] : List NodeId)) ↔ _
      simp only [List.not_mem_nil, false_iff]
      rintro ⟨-, sock, hsock, -⟩
      cases hsock
    | some sock =>
      show (u ∈ (sock.connections.take 1).map Prod.fst) ↔ _
      cases hcn : sock.connections with
      | nil =>
        simp only [List.take_nil, List.map_nil, List.not_mem_nil, false_iff]
        rintro ⟨-, sock', hsock, v, l', hconns, -⟩
        cases Option.some.inj hsock
        rw [hcn] at hconns
        cases hconns
      | cons v l' =>
        simp only [List.take_succ_cons, List.take_zero, List.map_cons, List.map_nil,
          List.mem_singleton]
        constructor
        · intro heq
          exact ⟨hq, sock, rfl, v, l', hcn, heq.symm⟩
        · rintro ⟨-, sock', hsock, v', l'', hconns, hv⟩
          cases Option.some.inj hsock
          rw [hcn] at hconns
          cases hconns
          exact hv.symm
  · rw [if_neg hq]
    simp only [List.not_mem_nil, false_iff]
    rintro ⟨hft, -⟩
    exact hq hft

theorem parents_fold_mem (sks : List (Nat × Socket)) (l : List (Nat × Row)) (u : NodeId) :
    (u ∈ l.foldr (fun p acc => rowParent sks p ++ acc) []) ↔
    ∃ pr ∈ l, u ∈ rowParent sks pr := by
  induction l with
  | nil => simp
  | cons q t ih =>
    simp only [List.foldr_cons, List.mem_append, ih, List.mem_cons]
    constructor
    · rintro (h | ⟨pr, hpr, h⟩)
      · exact ⟨q, Or.inl rfl, h⟩
      · exact ⟨pr, Or.inr hpr, h⟩
    · rintro ⟨pr, heq | hmem, h⟩
      · subst heq; exact Or.inl h
      · exact Or.inr ⟨pr, hmem, h⟩

theorem mem_parentsOf {s : St} {n u : NodeId} :
    u ∈ parentsOf s n ↔
      ∃ nd, lookupNode s n = some nd ∧
        ∃ pr ∈ nd.layout.enum,
          (pr.2.field_type = FieldType.input ∨ pr.2.field_type = FieldType.dynamic) ∧
          ∃ sock, alookup nd.sockets pr.1 = some sock ∧
            ∃ v l', sock.connections = v :: l' ∧ v.1 = u := by
  unfold parentsOf
  cases h : lookupNode s n with
  | none => simp
  | some nd => simp [parents_fold_mem, mem_rowParent]

/-! ### Branch equations for `_gather_inputs` -/

theorem linkOf_eq_some {s : St} {n : NodeId} {idx : Nat} {us : SockId} :
    linkOf s n idx = some us ↔
      ∃ sock l', lookupSock s (n, idx) = some sock ∧ sock.connections = us :: l' := by
  unfold linkOf
  cases hsk : lookupSock s (n, idx) with
  | none => simp
  | some sock =>
    show sock.connections.head? = some us ↔ _
    cases hcn : sock.connections with
    | nil =>
      constructor
      · intro h
        simp at h
      · rintro ⟨sock', l', hsock, hconns⟩
        cases hsock
        rw [hcn] at hconns
        cases hconns
    | cons v l' =>
      simp only [List.head?_cons, Option.some.injEq]
      constructor
      · intro hv
        exact ⟨sock, l', rfl, by rw [hcn, hv]⟩
      · rintro ⟨sock', l'', hsock, hconns⟩
        cases hsock
        rw [hcn] at hconns
        exact (List.cons.inj hconns).1

theorem linkOf_none_of_nosock {s : St} {n : NodeId} {idx : Nat}
    (h : lookupSock s (n, idx) = none) : linkOf s n idx = none := by
  unfold linkOf
  rw [h]

theorem linkOf_none_of_noconn {s : St} {n : NodeId} {idx : Nat} {sock : Socket}
    (h : lookupSock s (n, idx) = some sock) (hc : sock.connections = []) :
    linkOf s n idx = none := by
  unfold linkOf
  rw [h]
  show sock.connections.head? = none
  rw [hc]
  rfl

theorem gatherRaw_link (cookF : St → NodeId → St × Option Err) (s : St) (n : NodeId)
    (idx : Nat) (r : Row) (us : SockId)
    (hft : r.field_type = FieldType.input ∨ r.field_type = FieldType.dynamic)
    (hlink : linkOf s n idx = some us) :
    gatherRaw cookF s n idx r =
      ((cookF s us.1).1,
        match (cookF s us.1).2 with
        | none => Except.ok (readUpstream (cookF s us.1).1 us)
        | some e => Except.error e) := by
  unfold gatherRaw
  rw [if_pos hft, hlink]

theorem gatherRaw_dynamic_nolink (cookF : St → NodeId → St × Option Err) (s : St)
    (n : NodeId) (idx : Nat) (r : Row)
    (hft : r.field_type = FieldType.dynamic) (hlink : linkOf s n idx = none) :
    gatherRaw cookF s n idx r = (s, Except.ok (staticVal s n idx)) := by
  unfold gatherRaw
  rw [if_pos (Or.inr hft), hlink]
  show (if r.field_type = FieldType.dynamic then _ else _) = _
  rw [if_pos hft]

theorem gatherRaw_input_nolink (cookF : St → NodeId → St × Option Err) (s : St)
    (n : NodeId) (idx : Nat) (r : Row)
    (hft : r.field_type = FieldType.input) (hlink : linkOf s n idx = none) :
    gatherRaw cookF s n idx r = (s, Except.ok none) := by
  unfold gatherRaw
  rw [if_pos (Or.inl hft), hlink]
  show (if r.field_type = FieldType.dynamic then _ else _) = _
  rw [if_neg (by rw [hft]; intro hc; cases hc)]

theorem gatherRaw_static (cookF : St → NodeId → St × Option Err) (s : St)
    (n : NodeId) (idx : Nat) (r : Row) (hft : r.field_type = FieldType.static) :
    gatherRaw cookF s n idx r = (s, Except.ok (staticVal s n idx)) := by
  unfold gatherRaw
  rw [if_neg (by rw [hft]; rintro (hc | hc) <;> cases hc), if_pos hft]

theorem gatherRaw_other (cookF : St → NodeId → St × Option Err) (s : St)
    (n : NodeId) (idx : Nat) (r : Row)
    (h1 : r.field_type ≠ FieldType.input) (h2 : r.field_type ≠ FieldType.dynamic)
    (h3 : r.field_type ≠ FieldType.static) :
    gatherRaw cookF s n idx r = (s, Except.ok none) := by
  unfold gatherRaw
  rw [if_neg (by rintro (hc | hc) <;> [exact h1 hc; exact h2 hc]), if_neg h3]

theorem gatherOne_eq (cookF : St → NodeId → St × Option Err) (s : St) (n : NodeId)
    (idx : Nat) (r : Row) :
    gatherOne cookF s n idx r =
      ((gatherRaw cookF s n idx r).1,
        match (gatherRaw cookF s n idx r).2 with
        | Except.ok v => Except.ok (v.bind (convertVal r.data_type))
        | Except.error e => Except.error e) := rfl

theorem gatherOne_of_raw_ok {cookF : St → NodeId → St × Option Err} {s s' : St}
    {n : NodeId} {idx : Nat} {r : Row} {v : Option Value}
    (h : gatherRaw cookF s n idx r = (s', Except.ok v)) :
    gatherOne cookF s n idx r = (s', Except.ok (v.bind (convertVal r.data_type))) := by
  rw [gatherOne_eq, h]

theorem gatherOne_of_raw_error {cookF : St → NodeId → St × Option Err} {s s' : St}
    {n : NodeId} {idx : Nat} {r : Row} {e : Err}
    (h : gatherRaw cookF s n idx r = (s', Except.error e)) :
    gatherOne cookF s n idx r = (s', Except.error e) := by
  rw [gatherOne_eq, h]

/-- Every loop iteration of `_gather_inputs` either leaves the state alone
and succeeds, or hands the state to the recursive `cook` of the first
connected upstream socket of an Input or Dynamic row. -/
theorem gatherRaw_cases (cookF : St → NodeId → St × Option Err) (s : St) (n : NodeId)
    (idx : Nat) (r : Row) :
    (∃ v, gatherRaw cookF s n idx r = (s, Except.ok v)) ∨
    ∃ us, (r.field_type = FieldType.input ∨ r.field_type = FieldType.dynamic) ∧
      linkOf s n idx = some us ∧
      gatherRaw cookF s n idx r =
        ((cookF s us.1).1,
          match (cookF s us.1).2 with
          | none => Except.ok (readUpstream (cookF s us.1).1 us)
          | some e => Except.error e) := by
  by_cases hft : r.field_type = FieldType.input ∨ r.field_type = FieldType.dynamic
  · cases hlink : linkOf s n idx with
    | none =>
      left
      rcases hft with hft | hft
      · exact ⟨none, gatherRaw_input_nolink cookF s n idx r hft hlink⟩
      · exact ⟨staticVal s n idx, gatherRaw_dynamic_nolink cookF s n idx r hft hlink⟩
    | some us =>
      exact Or.inr ⟨us, hft, rfl, gatherRaw_link cookF s n idx r us hft hlink⟩
  · left
    by_cases hst : r.field_type = FieldType.static
    · exact ⟨staticVal s n idx, gatherRaw_static cookF s n idx r hst⟩
    · exact ⟨none, gatherRaw_other cookF s n idx r
        (fun hc => hft (Or.inl hc)) (fun hc => hft (Or.inr hc)) hst⟩

/-! ### The pull graph is the reverse of the link graph -/

/-- Sockets built for Input and Dynamic rows are input sockets, as
`_build_from_layout` makes them. -/
def InKindOk (s : St) : Prop :=
  ∀ p ∈ s.nodes, ∀ pr ∈ p.2.layout.enum,
    (pr.2.field_type = FieldType.input ∨ pr.2.field_type = FieldType.dynamic) →
    ∀ sock, alookup p.2.sockets pr.1 = some sock → sock.kind = SockKind.input

instance (s : St) : Decidable (InKindOk s) := by
  unfold InKindOk; infer_instance

theorem stepD_mem_keys {s : St} {a b : NodeId} (h : StepD s a b) : a ∈ keysOf s := by
  rcases mem_childrenOf.mp h with ⟨nd, hlk, -⟩
  exact List.mem_map.mpr ⟨(a, nd), alookup_mem hlk, rfl⟩

theorem stepU_mem_keys {s : St} {a b : NodeId} (h : StepU s a b) : a ∈ keysOf s := by
  rcases mem_parentsOf.mp h with ⟨nd, hlk, -⟩
  exact List.mem_map.mpr ⟨(a, nd), alookup_mem hlk, rfl⟩

/-- With the symmetric adjacency of `NLDPWire` and input-kind sockets on
input rows, every pull hop is a link hop read backwards. -/
theorem stepD_of_stepU {s : St} (hik : InKindOk s) (hadj : AdjSym s) {x y : NodeId}
    (h : StepU s x y) : StepD s y x := by
  rcases mem_parentsOf.mp h with
    ⟨nd, hlk, pr, hpr, hft, sock, hsock, us, l', hconns, hus⟩
  have hmem : (x, nd) ∈ s.nodes := alookup_mem hlk
  have hkind : sock.kind = SockKind.input := hik (x, nd) hmem pr hpr hft sock hsock
  have hq : (pr.1, sock) ∈ nd.sockets := alookup_mem hsock
  have hback := hadj (x, nd) hmem (pr.1, sock) hq hkind us
    (by rw [hconns]; exact List.mem_cons_self _ _)
  unfold backOk at hback
  cases hsk : lookupSock s us with
  | none => rw [hsk] at hback; cases hback
  | some sk =>
    rw [hsk] at hback
    have hb := of_decide_eq_true hback
    rcases lookupSock_eq_some hsk with ⟨ndu, hlku, halk⟩
    refine mem_childrenOf.mpr ⟨ndu, ?_, (us.2, sk), alookup_mem halk, hb.1, (x, pr.1), hb.2, ?_⟩
    · rw [← hus]; exact hlku
    · rfl

/-- Reversing every step of a reflexive-transitive chain. -/
theorem rtg_reverse {α : Type} {r r' : α → α → Prop} (h : ∀ a b, r a b → r' b a)
    {x y : α} (hr : Relation.ReflTransGen r x y) : Relation.ReflTransGen r' y x := by
  induction hr with
  | refl => exact Relation.ReflTransGen.refl
  | tail hxb hbc ih => exact Relation.ReflTransGen.head (h _ _ hbc) ih

/-- An acyclic link graph makes the pull graph acyclic too. -/
theorem acyclicU_of {s : St} (hik : InKindOk s) (hadj : AdjSym s)
    (hA : AcyclicD s) : AcyclicU s := by
  intro x y hstep hreach
  have hd : StepD s y x := stepD_of_stepU hik hadj hstep
  have hr : ReachD s x y := rtg_reverse (fun a b hab => stepD_of_stepU hik hadj hab) hreach
  exact hA y x hd hr

/-- Acyclicity of the link graph follows from the executable BFS check
running clean on every edge. -/
theorem acyclicD_of_check (s : St) (hcc : ConnClosed s)
    (h : ∀ x ∈ keysOf s, ∀ y ∈ childrenOf s x, reachB s y x = false) : AcyclicD s := by
  intro x y hstep hreach
  have hx : x ∈ keysOf s := stepD_mem_keys hstep
  by_cases hy : y ∈ keysOf s
  · have hb := (reachB_iff hcc hy).mpr hreach
    rw [h x hx y hstep] at hb
    cases hb
  · rcases Relation.ReflTransGen.cases_head hreach with heq | ⟨z, hstep', -⟩
    · exact hy (heq ▸ hx)
    · exact hy (stepD_mem_keys hstep')

/-! ### Equations of `cook` -/

theorem cook_succ_none {s : St} {n : NodeId} (f : Nat) (ev : Ev)
    (h : lookupNode s n = none) : cook (f + 1) ev s n = (s, none) := by
  rw [cook, h]

theorem cook_succ_clean {s : St} {n : NodeId} {nd : NodeSt} (f : Nat) (ev : Ev)
    (h : lookupNode s n = some nd) (hd : nd.is_dirty = false) :
    cook (f + 1) ev s n = (s, none) := by
  rw [cook, h]
  show (if nd.is_dirty then _ else _) = _
  rw [hd]
  rfl

theorem cook_succ_dirty_err {s s₁ : St} {n : NodeId} {nd : NodeSt} {e : Err}
    (f : Nat) (ev : Ev)
    (h : lookupNode s n = some nd) (hd : nd.is_dirty = true)
    (hg : gatherRows (cook f ev) n nd.layout 0 s = (s₁, Except.error e)) :
    cook (f + 1) ev s n = (s₁, some e) := by
  rw [cook, h]
  show (if nd.is_dirty then _ else _) = _
  rw [hd, if_pos rfl, hg]

theorem cook_succ_dirty_evalErr {s s₁ : St} {n : NodeId} {nd : NodeSt} {c : Nat}
    {ins : List (Nat × Option Value)} (f : Nat) (ev : Ev)
    (h : lookupNode s n = some nd) (hd : nd.is_dirty = true)
    (hg : gatherRows (cook f ev) n nd.layout 0 s = (s₁, Except.ok ins))
    (he : ev n ins = Except.error c) :
    cook (f + 1) ev s n = (s₁, some (Err.evalErr c)) := by
  rw [cook, h]
  show (if nd.is_dirty then _ else _) = _
  rw [hd, if_pos rfl, hg]
  show (match ev n ins with
        | Except.error c => (s₁, some (Err.evalErr c))
        | Except.ok outs =>
          (updNode s₁ n fun nd' => { storeOutputs nd' outs with is_dirty := false },
            none)) = _
  rw [he]

theorem cook_succ_dirty_ok {s s₁ : St} {n : NodeId} {nd : NodeSt}
    {ins outs : List (Nat × Option Value)} (f : Nat) (ev : Ev)
    (h : lookupNode s n = some nd) (hd : nd.is_dirty = true)
    (hg : gatherRows (cook f ev) n nd.layout 0 s = (s₁, Except.ok ins))
    (he : ev n ins = Except.ok outs) :
    cook (f + 1) ev s n =
      (updNode s₁ n fun nd' => { storeOutputs nd' outs with is_dirty := false },
        none) := by
  rw [cook, h]
  show (if nd.is_dirty then _ else _) = _
  rw [hd, if_pos rfl, hg]
  show (match ev n ins with
        | Except.error c => (s₁, some (Err.evalErr c))
        | Except.ok outs =>
          (updNode s₁ n fun nd' => { storeOutputs nd' outs with is_dirty := false },
            none)) = _
  rw [he]

/-! ### Equations of `gatherRows` -/

theorem gatherRows_nil (cookF : St → NodeId → St × Option Err) (n : NodeId)
    (idx : Nat) (s : St) : gatherRows cookF n [] idx s = (s, Except.ok []) := rfl

theorem gatherRows_cons_err {cookF : St → NodeId → St × Option Err} {s s₁ : St}
    {n : NodeId} {idx : Nat} {r : Row} {rest : List Row} {e : Err}
    (h : gatherOne cookF s n idx r = (s₁, Except.error e)) :
    gatherRows cookF n (r :: rest) idx s = (s₁, Except.error e) := by
  rw [gatherRows, h]

theorem gatherRows_cons_ok {cookF : St → NodeId → St × Option Err} {s s₁ : St}
    {n : NodeId} {idx : Nat} {r : Row} {rest : List Row} {v : Option Value}
    (h : gatherOne cookF s n idx r = (s₁, Except.ok v)) :
    gatherRows cookF n (r :: rest) idx s =
      (match gatherRows cookF n rest (idx + 1) s₁ with
        | (s₂, Except.error e) => (s₂, Except.error e)
        | (s₂, Except.ok vs) => (s₂, Except.ok ((idx, v) :: vs))) := by
  rw [gatherRows, h]

theorem gatherRows_cons_ok_err {cookF : St → NodeId → St × Option Err} {s s₁ s₂ : St}
    {n : NodeId} {idx : Nat} {r : Row} {rest : List Row} {v : Option Value} {e : Err}
    (h1 : gatherOne cookF s n idx r = (s₁, Except.ok v))
    (h2 : gatherRows cookF n rest (idx + 1) s₁ = (s₂, Except.error e)) :
    gatherRows cookF n (r :: rest) idx s = (s₂, Except.error e) := by
  rw [gatherRows_cons_ok h1, h2]

theorem gatherRows_cons_ok_ok {cookF : St → NodeId → St × Option Err} {s s₁ s₂ : St}
    {n : NodeId} {idx : Nat} {r : Row} {rest : List Row} {v : Option Value}
    {vs : List (Nat × Option Value)}
    (h1 : gatherOne cookF s n idx r = (s₁, Except.ok v))
    (h2 : gatherRows cookF n rest (idx + 1) s₁ = (s₂, Except.ok vs)) :
    gatherRows cookF n (r :: rest) idx s = (s₂, Except.ok ((idx, v) :: vs)) := by
  rw [gatherRows_cons_ok h1, h2]

/-! ### What one gather step does to the state -/

/-- One `_gather_inputs` iteration either leaves the state alone or hands
it to the recursive cook of a parent of `n`: it keeps the node structure,
and it cannot touch a node that is not reachable upstream through a
parent of `n`. -/
theorem gatherOne_step {cookF : St → NodeId → St × Option Err} {s t : St} {n : NodeId}
    {nd : NodeSt} {idx : Nat} {r : Row}
    (hlk : lookupNode s n = some nd)
    (hrow : (idx, r) ∈ nd.layout.enum)
    (hS : ∀ t' u, SkelEq t' (cookF t' u).1)
    (hF : ∀ t' u x, ¬ ReachU t' u x → lookupNode (cookF t' u).1 x = lookupNode t' x)
    (ht : SkelEq s t) :
    SkelEq t (gatherOne cookF t n idx r).1 ∧
    ∀ x, (∀ u, StepU s n u → ¬ ReachU s u x) →
      lookupNode (gatherOne cookF t n idx r).1 x = lookupNode t x := by
  rcases gatherRaw_cases cookF t n idx r with ⟨v, hraw⟩ | ⟨us, hft, hlink, hraw⟩
  · have h1 : (gatherOne cookF t n idx r).1 = t := by rw [gatherOne_eq, hraw]
    rw [h1]
    exact ⟨skelEq_refl t, fun x hx => rfl⟩
  · have h1 : (gatherOne cookF t n idx r).1 = (cookF t us.1).1 := by
      rw [gatherOne_eq, hraw]
    rw [h1]
    refine ⟨hS t us.1, ?_⟩
    intro x hx
    rcases linkOf_eq_some.mp hlink with ⟨sock, l', hsk, hcn⟩
    rcases lookupSock_eq_some hsk with ⟨ndt, hlkt0, halk0⟩
    have hlkt : lookupNode t n = some ndt := hlkt0
    have halk : alookup ndt.sockets idx = some sock := halk0
    rcases lookup_parts_of_skelEq ht n with ⟨h1', h2'⟩ | ⟨nd1, nd2, h1', h2', hlay, hsf, hsk2⟩
    · rw [hlk] at h1'; cases h1'
    · rw [hlk] at h1'
      cases Option.some.inj h1'
      rw [hlkt] at h2'
      cases Option.some.inj h2'
      have hmemU : us.1 ∈ parentsOf t n := mem_parentsOf.mpr
        ⟨ndt, hlkt, (idx, r), by rw [← hlay]; exact hrow, hft, sock, halk, us, l', hcn, rfl⟩
      have hstep : StepU s n us.1 := by
        unfold StepU
        rw [parentsOf_eq_of_skelEq ht n]
        exact hmemU
      have hnr : ¬ ReachU t us.1 x := fun hr =>
        hx us.1 hstep ((reachU_eq_of_skelEq ht us.1 x).mpr hr)
      exact hF t us.1 x hnr

/-- The whole `_gather_inputs` loop keeps the node structure and cannot
touch a node that is not reachable upstream through a parent of `n`. -/
theorem gatherRows_sf (cookF : St → NodeId → St × Option Err) (s : St) (n : NodeId)
    (nd : NodeSt) (hlk : lookupNode s n = some nd)
    (hS : ∀ t u, SkelEq t (cookF t u).1)
    (hF : ∀ t u x, ¬ ReachU t u x → lookupNode (cookF t u).1 x = lookupNode t x) :
    ∀ (rows : List Row) (idx : Nat) (t : St), SkelEq s t →
      (∀ p ∈ List.enumFrom idx rows, p ∈ nd.layout.enum) →
      SkelEq s (gatherRows cookF n rows idx t).1 ∧
      ∀ x, (∀ u, StepU s n u → ¬ ReachU s u x) →
        lookupNode (gatherRows cookF n rows idx t).1 x = lookupNode t x := by
  intro rows
  induction rows with
  | nil =>
    intro idx t ht hrows
    exact ⟨ht, fun x hx => rfl⟩
  | cons r rest ih =>
    intro idx t ht hrows
    have hrow : (idx, r) ∈ nd.layout.enum :=
      hrows (idx, r) (by rw [List.enumFrom_cons]; exact List.mem_cons_self _ _)
    have hone := @gatherOne_step cookF s t n nd idx r hlk hrow hS hF ht
    cases hgo : gatherOne cookF t n idx r with
    | mk t1 res =>
    rw [hgo] at hone
    cases res with
    | error e =>
      rw [gatherRows_cons_err hgo]
      exact ⟨skelEq_trans ht hone.1, fun x hx => hone.2 x hx⟩
    | ok v =>
      have ht1 : SkelEq s t1 := skelEq_trans ht hone.1
      have hrest := ih (idx + 1) t1 ht1
        (fun p hp => hrows p (by rw [List.enumFrom_cons]; exact List.mem_cons_of_mem _ hp))
      cases hg2 : gatherRows cookF n rest (idx + 1) t1 with
      | mk s₂ res2 =>
      rw [hg2] at hrest
      cases res2 with
      | error e =>
        rw [gatherRows_cons_ok_err hgo hg2]
        exact ⟨hrest.1, fun x hx => (hrest.2 x hx).trans (hone.2 x hx)⟩
      | ok vs =>
        rw [gatherRows_cons_ok_ok hgo hg2]
        exact ⟨hrest.1, fun x hx => (hrest.2 x hx).trans (hone.2 x hx)⟩

/-- `cook` keeps the node structure of the whole graph, and does not
touch any node that is not upstream-reachable from the cooked node. -/
theorem cook_skel_frame :
    ∀ (f : Nat) (ev : Ev) (s : St) (n : NodeId),
      SkelEq s (cook f ev s n).1 ∧
      ∀ x, ¬ ReachU s n x → lookupNode (cook f ev s n).1 x = lookupNode s x := by
  intro f
  induction f with
  | zero =>
    intro ev s n
    exact ⟨skelEq_refl s, fun x hx => rfl⟩
  | succ f ih =>
    intro ev s n
    have hS : ∀ t u, SkelEq t (cook f ev t u).1 := fun t u => (ih ev t u).1
    have hF : ∀ t u x, ¬ ReachU t u x → lookupNode (cook f ev t u).1 x = lookupNode t x :=
      fun t u x hx => (ih ev t u).2 x hx
    cases hlk : lookupNode s n with
    | none =>
      rw [cook_succ_none f ev hlk]
      exact ⟨skelEq_refl s, fun x hx => rfl⟩
    | some nd =>
      cases hd : nd.is_dirty with
      | false =>
        rw [cook_succ_clean f ev hlk hd]
        exact ⟨skelEq_refl s, fun x hx => rfl⟩
      | true =>
        have hgsf := gatherRows_sf (cook f ev) s n nd hlk hS hF nd.layout 0 s
          (skelEq_refl s) (fun p hp => hp)
        cases hg : gatherRows (cook f ev) n nd.layout 0 s with
        | mk s₁ res =>
        rw [hg] at hgsf
        cases res with
        | error e =>
          rw [cook_succ_dirty_err f ev hlk hd hg]
          exact ⟨hgsf.1, fun x hx =>
            hgsf.2 x (fun u hu hr => hx (Relation.ReflTransGen.head hu hr))⟩
        | ok ins =>
          cases hev : ev n ins with
          | error c =>
            rw [cook_succ_dirty_evalErr f ev hlk hd hg hev]
            exact ⟨hgsf.1, fun x hx =>
              hgsf.2 x (fun u hu hr => hx (Relation.ReflTransGen.head hu hr))⟩
          | ok outs =>
            rw [cook_succ_dirty_ok f ev hlk hd hg hev]
            constructor
            · exact skelEq_trans hgsf.1 (skelEq_updNode s₁ n _ (fun nd' => rfl))
            · intro x hx
              have hxn : x ≠ n := fun hc => hx (by rw [hc]; exact Relation.ReflTransGen.refl)
              rw [lookupNode_updNode_ne s₁ n x _ hxn]
              exact hgsf.2 x (fun u hu hr => hx (Relation.ReflTransGen.head hu hr))

/-! ### Termination of `cook` on acyclic graphs -/

/-- The first connected upstream socket of a row of `n` is a parent of
`n` in the pull graph, read back in the structurally equal state `s`. -/
theorem stepU_of_linkOf {s t : St} {n : NodeId} {nd : NodeSt} {idx : Nat} {r : Row}
    {us : SockId}
    (hlk : lookupNode s n = some nd) (hrow : (idx, r) ∈ nd.layout.enum)
    (hft : r.field_type = FieldType.input ∨ r.field_type = FieldType.dynamic)
    (ht : SkelEq s t) (hlink : linkOf t n idx = some us) : StepU s n us.1 := by
  rcases linkOf_eq_some.mp hlink with ⟨sock, l', hsk, hcn⟩
  rcases lookupSock_eq_some hsk with ⟨ndt, hlkt0, halk0⟩
  have hlkt : lookupNode t n = some ndt := hlkt0
  have halk : alookup ndt.sockets idx = some sock := halk0
  rcases lookup_parts_of_skelEq ht n with ⟨h1', h2'⟩ | ⟨nd1, nd2, h1', h2', hlay, hsf, hsk2⟩
  · rw [hlk] at h1'; cases h1'
  · rw [hlk] at h1'
    cases Option.some.inj h1'
    rw [hlkt] at h2'
    cases Option.some.inj h2'
    have hmemU : us.1 ∈ parentsOf t n := mem_parentsOf.mpr
      ⟨ndt, hlkt, (idx, r), by rw [← hlay]; exact hrow, hft, sock, halk, us, l', hcn, rfl⟩
    unfold StepU
    rw [parentsOf_eq_of_skelEq ht n]
    exact hmemU

/-- The set of graph nodes demanded (upstream-reachable) from `n`, as it
enters the recursion measure. -/
theorem ukeys_set_eq_of_skelEq {s t : St} (h : SkelEq s t) (u : NodeId) :
    {x | x ∈ keysOf t ∧ ReachU t u x} = {x | x ∈ keysOf s ∧ ReachU s u x} := by
  ext x
  simp only [Set.mem_setOf_eq]
  rw [← h.2.1, ← reachU_eq_of_skelEq h]

theorem ukeys_finite (s : St) (n : NodeId) :
    {x | x ∈ keysOf s ∧ ReachU s n x}.Finite :=
  Set.Finite.subset (List.finite_toSet (keysOf s)) (fun _ hx => hx.1)

/-- Stepping to a parent strictly shrinks the demanded node set when the
pull graph is acyclic. -/
theorem ukeys_card_lt {s : St} {n u : NodeId} (hA : AcyclicU s) (hn : n ∈ keysOf s)
    (hstep : StepU s n u) :
    Set.ncard {x | x ∈ keysOf s ∧ ReachU s u x} <
      Set.ncard {x | x ∈ keysOf s ∧ ReachU s n x} := by
  apply Set.ncard_lt_ncard
  · constructor
    · rintro x ⟨hxk, hxr⟩
      exact ⟨hxk, Relation.ReflTransGen.head hstep hxr⟩
    · intro hsub
      have hnin := hsub ⟨hn, Relation.ReflTransGen.refl⟩
      exact hA n u hstep hnin.2
  · exact ukeys_finite s n

theorem ukeys_card_le (s : St) (n : NodeId) :
    Set.ncard {x | x ∈ keysOf s ∧ ReachU s n x} ≤ s.nodes.length := by
  have h1 : {x | x ∈ keysOf s ∧ ReachU s n x} ⊆ ↑(keysOf s).toFinset := by
    intro x hx
    simp only [Finset.coe_sort_coe, List.coe_toFinset, Set.mem_setOf_eq]
    exact hx.1
  have h2 := Set.ncard_le_ncard h1 (keysOf s).toFinset.finite_toSet
  rw [Set.ncard_coe_Finset] at h2
  calc Set.ncard {x | x ∈ keysOf s ∧ ReachU s n x} ≤ (keysOf s).toFinset.card := h2
    _ ≤ (keysOf s).length := (keysOf s).toFinset_card_le
    _ = s.nodes.length := by simp [keysOf]

/-- With fuel exceeding the number of graph nodes demanded from `n`, and
an acyclic pull graph, `cook` never reports fuel exhaustion: the model's
fuel stands for the recursion depth of the Python code, so the recursion
terminates. -/
theorem cook_no_fuelOut :
    ∀ (f : Nat) (ev : Ev) (s : St) (n : NodeId), AcyclicU s →
      Set.ncard {x | x ∈ keysOf s ∧ ReachU s n x} < f →
      (cook f ev s n).2 ≠ some Err.fuelOut := by
  intro f
  induction f with
  | zero => intro ev s n _ hcard; omega
  | succ f ih =>
    intro ev s n hA hcard
    cases hlk : lookupNode s n with
    | none =>
      rw [cook_succ_none f ev hlk]
      intro hc; cases hc
    | some nd =>
      cases hd : nd.is_dirty with
      | false =>
        rw [cook_succ_clean f ev hlk hd]
        intro hc; cases hc
      | true =>
        have hn : n ∈ keysOf s := List.mem_map.mpr ⟨(n, nd), alookup_mem hlk, rfl⟩
        have hg : ∀ (rows : List Row) (idx : Nat) (t : St), SkelEq s t →
            (∀ p ∈ List.enumFrom idx rows, p ∈ nd.layout.enum) →
            ∀ t' e, gatherRows (cook f ev) n rows idx t = (t', Except.error e) →
              e ≠ Err.fuelOut := by
          intro rows
          induction rows with
          | nil =>
            intro idx t ht hrows t' e hge
            rw [gatherRows_nil] at hge
            have h2 : Except.ok ([] : List (Nat × Option Value)) =
                (Except.error e : Except Err (List (Nat × Option Value))) :=
              congrArg Prod.snd hge
            cases h2
          | cons r rest ihr =>
            intro idx t ht hrows t' e hge
            have hrow : (idx, r) ∈ nd.layout.enum :=
              hrows (idx, r) (by rw [List.enumFrom_cons]; exact List.mem_cons_self _ _)
            have hrows' : ∀ p ∈ List.enumFrom (idx + 1) rest, p ∈ nd.layout.enum :=
              fun p hp => hrows p (by rw [List.enumFrom_cons]; exact List.mem_cons_of_mem _ hp)
            rcases gatherRaw_cases (cook f ev) t n idx r with ⟨v, hraw⟩ | ⟨us, hft, hlink, hraw⟩
            · have hgo := gatherOne_of_raw_ok hraw
              cases hg2 : gatherRows (cook f ev) n rest (idx + 1) t with
              | mk s₂ res2 =>
              cases res2 with
              | error e2 =>
                rw [gatherRows_cons_ok_err hgo hg2] at hge
                cases hge
                exact ihr (idx + 1) t ht hrows' t' e hg2
              | ok vs =>
                rw [gatherRows_cons_ok_ok hgo hg2] at hge
                cases hge
            · have hstep : StepU s n us.1 := stepU_of_linkOf hlk hrow hft ht hlink
              cases hcf : cook f ev t us.1 with
              | mk t1 oe =>
              rw [hcf] at hraw
              have ht1 : SkelEq s t1 := by
                have hcs := (cook_skel_frame f ev t us.1).1
                rw [hcf] at hcs
                exact skelEq_trans ht hcs
              cases oe with
              | none =>
                have hraw' : gatherRaw (cook f ev) t n idx r =
                    (t1, Except.ok (readUpstream t1 us)) := hraw
                have hgo := gatherOne_of_raw_ok hraw'
                cases hg2 : gatherRows (cook f ev) n rest (idx + 1) t1 with
                | mk s₂ res2 =>
                cases res2 with
                | error e2 =>
                  rw [gatherRows_cons_ok_err hgo hg2] at hge
                  cases hge
                  exact ihr (idx + 1) t1 ht1 hrows' t' e hg2
                | ok vs =>
                  rw [gatherRows_cons_ok_ok hgo hg2] at hge
                  cases hge
              | some e1 =>
                have hraw' : gatherRaw (cook f ev) t n idx r = (t1, Except.error e1) := hraw
                have hgo := gatherOne_of_raw_error hraw'
                rw [gatherRows_cons_err hgo] at hge
                cases hge
                by_cases hus : us.1 ∈ keysOf s
                · have hAt : AcyclicU t := fun a b hs hr =>
                    hA a b ((stepU_eq_of_skelEq ht a b).mpr hs)
                      ((reachU_eq_of_skelEq ht b a).mpr hr)
                  have hcard' :
                      Set.ncard {x | x ∈ keysOf t ∧ ReachU t us.1 x} < f := by
                    rw [ukeys_set_eq_of_skelEq ht us.1]
                    have hlt := ukeys_card_lt hA hn hstep
                    omega
                  have hnf := ih ev t us.1 hAt hcard'
                  rw [hcf] at hnf
                  intro hc
                  exact hnf (by rw [hc])
                · have hcard1 : 0 < Set.ncard {x | x ∈ keysOf s ∧ ReachU s n x} :=
                    (Set.ncard_pos (ukeys_finite s n)).mpr
                      ⟨n, hn, Relation.ReflTransGen.refl⟩
                  have hf1 : 0 < f := by omega
                  rcases Nat.exists_eq_succ_of_ne_zero (Nat.pos_iff_ne_zero.mp hf1)
                    with ⟨f', hff⟩
                  have hlk0 : lookupNode t us.1 = none := by
                    have hnk : us.1 ∉ keysOf t := by rw [← ht.2.1]; exact hus
                    cases hopt : lookupNode t us.1 with
                    | none => rfl
                    | some ndu =>
                      exact absurd
                        (List.mem_map.mpr ⟨(us.1, ndu), alookup_mem hopt, rfl⟩) hnk
                  rw [hff, cook_succ_none f' ev hlk0] at hcf
                  cases hcf
        cases hgr : gatherRows (cook f ev) n nd.layout 0 s with
        | mk s₁ res =>
        cases res with
        | error e =>
          rw [cook_succ_dirty_err f ev hlk hd hgr]
          intro hc
          exact hg nd.layout 0 s (skelEq_refl s) (fun p hp => hp) s₁ e hgr
            (Option.some.inj hc)
        | ok ins =>
          cases hev : ev n ins with
          | error c =>
            rw [cook_succ_dirty_evalErr f ev hlk hd hgr hev]
            intro hc
            exact Err.noConfusion (Option.some.inj hc)
          | ok outs =>
            rw [cook_succ_dirty_ok f ev hlk hd hgr hev]
            intro hc
            cases hc

/-! ### Claim C7 -/

/-- C7: if the user-supplied `evaluate` raises during `cook()`, the
exception propagates uncaught to the caller of `cook()` (the model's
`evalErr` reaches the top of the returned pair), and the node remains
Dirty: its whole record — dirty flag and cached `output_values`
included — is exactly what it was before the call, so a retry is
possible. -/
theorem cook_eval_exception (s : St) (n : NodeId) (nd : NodeSt) (f : Nat) (ev : Ev)
    (c : Nat) (s₁ : St) (ins : List (Nat × Option Value))
    (hik : InKindOk s) (hadj : AdjSym s) (hA : AcyclicD s)
    (hlk : lookupNode s n = some nd) (hd : nd.is_dirty = true)
    (hg : gatherRows (cook f ev) n nd.layout 0 s = (s₁, Except.ok ins))
    (he : ev n ins = Except.error c) :
    cook (f + 1) ev s n = (s₁, some (Err.evalErr c)) ∧
    lookupNode s₁ n = some nd ∧ dirtyAt s₁ n = true := by
  refine ⟨cook_succ_dirty_evalErr f ev hlk hd hg he, ?_, ?_⟩
  · have hAU := acyclicU_of hik hadj hA
    have hgsf := gatherRows_sf (cook f ev) s n nd hlk
      (fun t u => (cook_skel_frame f ev t u).1)
      (fun t u x hx => (cook_skel_frame f ev t u).2 x hx)
      nd.layout 0 s (skelEq_refl s) (fun p hp => hp)
    rw [hg] at hgsf
    have hfr : lookupNode s₁ n = lookupNode s n :=
      hgsf.2 n (fun u hu hr => hAU n u hu hr)
    exact hfr.trans hlk
  · have hAU := acyclicU_of hik hadj hA
    have hgsf := gatherRows_sf (cook f ev) s n nd hlk
      (fun t u => (cook_skel_frame f ev t u).1)
      (fun t u x hx => (cook_skel_frame f ev t u).2 x hx)
      nd.layout 0 s (skelEq_refl s) (fun p hp => hp)
    rw [hg] at hgsf
    have hfr : lookupNode s₁ n = lookupNode s n :=
      hgsf.2 n (fun u hu hr => hAU n u hu hr)
    exact dirtyAt_eq_true_iff.mpr ⟨nd, hfr.trans hlk, hd⟩

/-- A one-node graph whose `evaluate` always raises: the node has an
empty layout and is dirty. -/
def w7nd : NodeSt :=
  { layout := []
    is_dirty := true
    static_fields := []
    output_values := [(0, some (Value.int 3))]
    sockets := [] }

def w7s : St := { nodes := [(0, w7nd)], wires := [] }

/-- An `evaluate` override that raises unconditionally. -/
def ev7 : Ev := fun _ _ => Except.error 7

theorem cook_eval_exception_witness :
    cook 1 ev7 w7s 0 = (w7s, some (Err.evalErr 7)) ∧
    lookupNode w7s 0 = some w7nd ∧ dirtyAt w7s 0 = true :=
  cook_eval_exception w7s 0 w7nd 0 ev7 7 w7s [] (by decide) (by decide)
    (acyclicD_of_check w7s (by decide) (by decide)) rfl rfl rfl rfl

/-! ### Claim C9 -/

/-- C9: under the precondition that the link graph is acyclic (with the
symmetric wire adjacency and input-kind sockets on input rows that every
editor state has), `cook()` and `mark_dirty()` terminate for every node:
with fuel exceeding the number of nodes — which bounds the longest
dependency chain — the fueled model of `cook` never exhausts its fuel,
and the fueled model of `mark_dirty` returns a state. -/
theorem cook_markDirty_terminate (s : St) (n : NodeId) (ev : Ev)
    (hik : InKindOk s) (hadj : AdjSym s) (hA : AcyclicD s) :
    (cook (s.nodes.length + 1) ev s n).2 ≠ some Err.fuelOut ∧
    (markDirty (s.nodes.length + 2) s n).isSome = true := by
  constructor
  · have hAU := acyclicU_of hik hadj hA
    apply cook_no_fuelOut (s.nodes.length + 1) ev s n hAU
    have := ukeys_card_le s n
    omega
  · have hcc : cleanCount s ≤ s.nodes.length := List.length_filter_le _ _
    rcases markDirty_total (s.nodes.length + 2) s n (by omega) with ⟨s', hs', -⟩
    rw [hs']
    rfl

/-- A two-node chain 0 ⟶ 1 with the full wire adjacency, for the
termination witness. -/
def w9out : Socket := { kind := SockKind.output, connections := [(1, 0)] }

def w9in : Socket := { kind := SockKind.input, connections := [(0, 0)] }

def w9nd0 : NodeSt :=
  { layout := [{ field_type := FieldType.output }]
    is_dirty := false
    static_fields := []
    output_values := [(0, some (Value.int 1))]
    sockets := [(0, w9out)] }

def w9nd1 : NodeSt :=
  { layout := [{ field_type := FieldType.input, data_type := some DType.float }]
    is_dirty := true
    static_fields := [(0, none)]
    output_values := []
    sockets := [(0, w9in)] }

def w9s : St := { nodes := [(0, w9nd0), (1, w9nd1)], wires := [((0, 0), (1, 0))] }

def ev9 : Ev := fun _ _ => Except.ok []

theorem cook_markDirty_terminate_witness :
    (cook (w9s.nodes.length + 1) ev9 w9s 1).2 ≠ some Err.fuelOut ∧
    (markDirty (w9s.nodes.length + 2) w9s 1).isSome = true :=
  cook_markDirty_terminate w9s 1 ev9 (by decide) (by decide)
    (acyclicD_of_check w9s (by decide) (by decide))

/-! ### Claim C5 -/

/-- C5 (amended): row-by-row semantics of `_gather_inputs`. An Input or
Dynamic row with a link cooks the upstream node and reads its output
through the type conversion; a Dynamic row without a link reads the
row's local field; an Input row without a link gathers `None`, ignoring
any declared default; a Static row reads the local field. -/
theorem gather_inputs_row_semantics (cookF : St → NodeId → St × Option Err)
    (s s' : St) (n : NodeId) (idx : Nat) (r : Row) (us : SockId) :
    ((r.field_type = FieldType.input ∨ r.field_type = FieldType.dynamic) →
      linkOf s n idx = some us → cookF s us.1 = (s', none) →
      gatherOne cookF s n idx r =
        (s', Except.ok ((readUpstream s' us).bind (convertVal r.data_type)))) ∧
    (r.field_type = FieldType.dynamic → linkOf s n idx = none →
      gatherOne cookF s n idx r =
        (s, Except.ok ((staticVal s n idx).bind (convertVal r.data_type)))) ∧
    (r.field_type = FieldType.input → linkOf s n idx = none →
      gatherOne cookF s n idx r = (s, Except.ok none)) ∧
    (r.field_type = FieldType.static →
      gatherOne cookF s n idx r =
        (s, Except.ok ((staticVal s n idx).bind (convertVal r.data_type)))) := by
  refine ⟨?_, ?_, ?_, ?_⟩
  · intro hft hlink hcf
    have hraw := gatherRaw_link cookF s n idx r us hft hlink
    rw [hcf] at hraw
    have hraw' : gatherRaw cookF s n idx r = (s', Except.ok (readUpstream s' us)) := hraw
    exact gatherOne_of_raw_ok hraw'
  · intro hft hlink
    exact gatherOne_of_raw_ok (gatherRaw_dynamic_nolink cookF s n idx r hft hlink)
  · intro hft hlink
    exact gatherOne_of_raw_ok (gatherRaw_input_nolink cookF s n idx r hft hlink)
  · intro hft
    exact gatherOne_of_raw_ok (gatherRaw_static cookF s n idx r hft)

/-- An Input row declared Float with `default_value` 5.0, its socket
unconnected, on a dirty single-node graph (as `_build_from_layout`
produces it: an Input row gets a socket but no static field). -/
def cex5row : Row :=
  { field_type := FieldType.input
    data_type := some DType.float
    default_value := some (Value.float 5) }

def cex5nd : NodeSt :=
  { layout := [cex5row]
    is_dirty := true
    static_fields := []
    output_values := []
    sockets := [(0, { kind := SockKind.input, connections := [] })] }

def cex5s : St := { nodes := [(0, cex5nd)], wires := [] }

def ev5 : Ev := fun _ _ => Except.ok []

/-- C5 counterexample: on an unconnected Input row, `_gather_inputs`
gathers `None`, although the row's local default value exists and would
convert cleanly to 5.0 — the gather does not fall back to the local
default as the claim states. -/
theorem gather_input_row_ignores_default :
    gatherRows (cook 1 ev5) 0 cex5nd.layout 0 cex5s = (cex5s, Except.ok [(0, none)]) ∧
    cex5row.default_value.bind (convertVal cex5row.data_type) = some (Value.float 5) := by
  constructor
  · rfl
  · rfl

/-! ### Claim C6 -/

def c6rowF : Row := { field_type := FieldType.static, data_type := some DType.float }

def c6rowI : Row := { field_type := FieldType.static, data_type := some DType.int }

def c6nd : NodeSt :=
  { layout := [c6rowF, c6rowI, c6rowI]
    is_dirty := true
    static_fields :=
      [(0, some (Value.str "3")), (1, some (Value.str "abc")), (2, some (Value.str "3.0"))]
    output_values := []
    sockets := [] }

def c6s : St := { nodes := [(0, c6nd)], wires := [] }

/-- A single Static Integer row whose field text is `t`. -/
def c6st (t : String) : St :=
  { nodes :=
      [(0,
        { layout := [c6rowI]
          is_dirty := true
          static_fields := [(0, some (Value.str t))]
          output_values := []
          sockets := [] })]
    wires := [] }

def cF6 : St → NodeId → St × Option Err := fun t _ => (t, none)

/-- C6: a Float row with field text "3" gathers 3.0; an Integer row with
field text "abc" gathers `None` (no exception is raised — the gather
returns normally); an Integer row tolerates float-style text "3.0" and
gathers the integer 3; and in general every Integer-row parse failure is
recovered locally as a `None` input rather than surfaced as an error. -/
theorem coercion_examples :
    gatherOne cF6 c6s 0 0 c6rowF = (c6s, Except.ok (some (Value.float 3))) ∧
    gatherOne cF6 c6s 0 1 c6rowI = (c6s, Except.ok none) ∧
    gatherOne cF6 c6s 0 2 c6rowI = (c6s, Except.ok (some (Value.int 3))) ∧
    (∀ t : String, pyFloat (Value.str t) = none →
      gatherOne cF6 (c6st t) 0 0 c6rowI = (c6st t, Except.ok none)) := by
  refine ⟨rfl, rfl, rfl, ?_⟩
  intro t ht
  have h1 := gatherOne_of_raw_ok (gatherRaw_static cF6 (c6st t) 0 0 c6rowI rfl)
  rw [h1]
  have h2 : staticVal (c6st t) 0 0 = some (Value.str t) := rfl
  rw [h2]
  show (c6st t, Except.ok (convertVal (some DType.int) (Value.str t))) = _
  have h3 : convertVal (some DType.int) (Value.str t) = none := by
    show (pyFloat (Value.str t)).map _ = none
    rw [ht]
    rfl
  rw [h3]

/-! ### Claim C10 -/

/-- C10: type coercion is uniform over the value's source. A linked
Input/Dynamic row converts the upstream output with exactly the same
`convertVal` as a Static row applies to locally edited text; an Integer
target truncates through float (`int(float(value))`, `qtrunc` being the
toward-zero truncation); and any value that cannot be parsed as a float
becomes `None` for Integer and Float targets alike. -/
theorem coercion_uniform (cookF : St → NodeId → St × Option Err)
    (s s' : St) (n : NodeId) (idx : Nat) (r : Row) (us : SockId) :
    ((r.field_type = FieldType.input ∨ r.field_type = FieldType.dynamic) →
      linkOf s n idx = some us → cookF s us.1 = (s', none) →
      gatherOne cookF s n idx r =
        (s', Except.ok ((readUpstream s' us).bind (convertVal r.data_type)))) ∧
    (r.field_type = FieldType.static →
      gatherOne cookF s n idx r =
        (s, Except.ok ((staticVal s n idx).bind (convertVal r.data_type)))) ∧
    (∀ v, convertVal (some DType.int) v =
      (pyFloat v).map fun q => Value.int (qtrunc q)) ∧
    (∀ q, convertVal (some DType.int) (Value.float q) = some (Value.int (qtrunc q))) ∧
    (∀ v, pyFloat v = none →
      convertVal (some DType.int) v = none ∧ convertVal (some DType.float) v = none) := by
  refine ⟨?_, ?_, fun v => rfl, ?_, ?_⟩
  · intro hft hlink hcf
    have hraw := gatherRaw_link cookF s n idx r us hft hlink
    rw [hcf] at hraw
    have hraw' : gatherRaw cookF s n idx r = (s', Except.ok (readUpstream s' us)) := hraw
    exact gatherOne_of_raw_ok hraw'
  · intro hft
    exact gatherOne_of_raw_ok (gatherRaw_static cookF s n idx r hft)
  · intro q
    show (pyFloat (Value.float q)).map (fun q => Value.int (qtrunc q)) = _
    rfl
  · intro v hv
    constructor
    · show (pyFloat v).map (fun q => Value.int (qtrunc q)) = none
      rw [hv]
      rfl
    · show (pyFloat v).map Value.float = none
      rw [hv]
      rfl

/-! ### Concrete example graphs for the witnesses -/

/-- Two nodes, each with an input socket (row 0) and an output socket
(row 1), and a wire from node 0's output to node 1's input. -/
def w1in0 : Socket := { kind := SockKind.input, connections := [] }

def w1out0 : Socket := { kind := SockKind.output, connections := [(1, 0)] }

def w1in1 : Socket := { kind := SockKind.input, connections := [(0, 1)] }

def w1out1 : Socket := { kind := SockKind.output, connections := [] }

def w1nd0 : NodeSt :=
  { layout := [{ field_type := FieldType.input }, { field_type := FieldType.output }]
    is_dirty := false
    static_fields := []
    output_values := [(1, none)]
    sockets := [(0, w1in0), (1, w1out0)] }

def w1nd1 : NodeSt :=
  { layout := [{ field_type := FieldType.input }, { field_type := FieldType.output }]
    is_dirty := false
    static_fields := []
    output_values := [(1, none)]
    sockets := [(0, w1in1), (1, w1out1)] }

def w1s : St := { nodes := [(0, w1nd0), (1, w1nd1)], wires := [((0, 1), (1, 0))] }

theorem is_circular_connection_iff_reachable_witness :
    (is_circular_connection w1s (1, 1) (0, 0) = true ↔ ReachD w1s 0 1) ∧
    (AcyclicD w1s →
      (is_circular_connection w1s (1, 1) (0, 0) = false ↔
        AcyclicD (addWireAdj w1s (1, 1) (0, 0)))) :=
  is_circular_connection_iff_reachable w1s (1, 1) (0, 0) w1out1 w1in0 (1, 1) (0, 0)
    rfl rfl (Or.inl ⟨rfl, rfl⟩) (by decide) (by decide) (by decide) (by decide)
    (by decide) (by decide) (by decide)

/-- The state after marking node 0 of the example chain dirty. -/
def w2s' : St := (markDirty 4 w1s 0).getD w1s

theorem markDirty_propagation_witness :
    (∀ m, ReachD w1s 0 m → dirtyAt w2s' m = true) ∧
    (∀ m, ¬ ReachD w1s 0 m → dirtyAt w2s' m = dirtyAt w1s m) ∧
    DirtyClosed w2s' :=
  markDirty_propagation w1s 0 w2s' 4 (by decide) (by decide) (by decide) (by decide) rfl

/-- A bounded, checkable form of the fan-in invariant hypothesis of the
reconnection theorem. -/
theorem fanIn_of_nodes {s : St}
    (h : ∀ p ∈ s.nodes, ∀ q ∈ p.2.sockets, q.2.kind = SockKind.input →
      q.2.connections.length ≤ 1) :
    ∀ sid sk, lookupSock s sid = some sk → sk.kind = SockKind.input →
      sk.connections.length ≤ 1 := by
  intro sid sk hsk hki
  rcases lookupSock_eq_some hsk with ⟨nd, hlk, halk⟩
  exact h (sid.1, nd) (alookup_mem hlk) (sid.2, sk) (alookup_mem halk) hki

/-- Three nodes: outputs on 0 and 1, an input on 2 already wired to 0. -/
def w3out0 : Socket := { kind := SockKind.output, connections := [(2, 0)] }

def w3out1 : Socket := { kind := SockKind.output, connections := [] }

def w3in2 : Socket := { kind := SockKind.input, connections := [(0, 0)] }

def w3nd0 : NodeSt :=
  { layout := [{ field_type := FieldType.output }]
    is_dirty := false
    static_fields := []
    output_values := [(0, none)]
    sockets := [(0, w3out0)] }

def w3nd1 : NodeSt :=
  { layout := [{ field_type := FieldType.output }]
    is_dirty := false
    static_fields := []
    output_values := [(0, none)]
    sockets := [(0, w3out1)] }

def w3nd2 : NodeSt :=
  { layout := [{ field_type := FieldType.input }]
    is_dirty := false
    static_fields := []
    output_values := []
    sockets := [(0, w3in2)] }

def w3s : St :=
  { nodes := [(0, w3nd0), (1, w3nd1), (2, w3nd2)], wires := [((0, 0), (2, 0))] }

theorem connect_replaces_prior_link_witness :
    connsOf (connectTx w3s (1, 0) (2, 0)) (2, 0) = [(1, 0)] ∧
    (connectTx w3s (1, 0) (2, 0)).wires.length = w3s.wires.length ∧
    (∀ sid sk, lookupSock (connectTx w3s (1, 0) (2, 0)) sid = some sk →
      sk.kind = SockKind.input → sk.connections.length ≤ 1) :=
  connect_replaces_prior_link w3s (1, 0) (2, 0) w3out1 w3in2 (0, 0) (2, 0) (1, 0)
    ((0, 0), (2, 0)) rfl rfl (by decide) (by decide) (by decide) (by decide)
    (by decide) (by decide) (by decide) (by decide) (fanIn_of_nodes (by decide))

theorem disconnect_removes_both_sides_witness :
    (1, 0) ∉ connsOf (disconnectTx w1s ((0, 1), (1, 0))) (0, 1) ∧
    (0, 1) ∉ connsOf (disconnectTx w1s ((0, 1), (1, 0))) (1, 0) ∧
    (disconnectTx w1s ((0, 1), (1, 0))).wires.length + 1 = w1s.wires.length ∧
    (∀ m, dirtyAt (disconnectTx w1s ((0, 1), (1, 0))) m = dirtyAt w1s m) :=
  disconnect_removes_both_sides w1s ((0, 1), (1, 0)) w1out0 w1in1 rfl rfl
    (by decide) (by decide) (by decide) (by decide)

/-- C4 counterexample: cutting the wire of the example chain removes it,
yet the downstream (input-side) node 1 is clean before and stays clean
after — `NLDPWire.__del__` and the wire-cutting handler never call
`mark_dirty`, contradicting the claim that disconnecting marks the
downstream node dirty. -/
theorem disconnect_does_not_mark_dirty :
    (disconnectTx w1s ((0, 1), (1, 0))).wires = [] ∧
    dirtyAt w1s 1 = false ∧
    dirtyAt (disconnectTx w1s ((0, 1), (1, 0))) 1 = false := by
  refine ⟨rfl, rfl, rfl⟩

theorem connectTx_rejected_no_mutation_witness :
    connectTx w1s (0, 1) (1, 1) = w1s ∧
    (connectTx w1s (0, 1) (1, 1)).wires = w1s.wires ∧
    (∀ sid, connsOf (connectTx w1s (0, 1) (1, 1)) sid = connsOf w1s sid) ∧
    (∀ m, dirtyAt (connectTx w1s (0, 1) (1, 1)) m = dirtyAt w1s m) ∧
    (connectTx w1s (0, 1) (1, 1)).wires.length = w1s.wires.length :=
  connectTx_rejected_no_mutation w1s (0, 1) (1, 1) w1out0 w1out1 rfl rfl (Or.inl rfl)
end NLDP
